import Mathlib

/-!
Verification development for the miumono agent framework.

Shallow embedding of:
  packages/miu_core/miu_core/tools/registry.py   (ToolRegistry)
  packages/core/miu_core/agents/react.py         (ReActAgent.run, run_stream)
  packages/core/miu_core/patterns/orchestrator.py (Orchestrator)
  packages/core/miu_core/patterns/pipeline.py     (Pipeline)
  packages/core/miu_core/patterns/routing.py      (Router.add_route)
  packages/core/miu_core/memory/truncation.py     (estimate_tokens, truncate_fifo)
  packages/miu_core/miu_core/models/messages.py   (Message, ContentBlock, Response, stream events)

Python dicts are embedded as association lists with python-dict
assignment semantics (replace in place if the key is present, else
append); python exceptions as `Except String` with the exception's
str() as the payload.
-/

namespace Miu

/-- Python dict lookup `d.get(k)` on an association list. -/
def alookup {α : Type} (m : List (String × α)) (k : String) : Option α :=
  match m with
  | [] => none
  | (k', v) :: rest => if k' = k then some v else alookup rest k

/-- Python dict assignment `d[k] = v`: replace in place if present, else append. -/
def aset {α : Type} (m : List (String × α)) (k : String) (v : α) : List (String × α) :=
  match m with
  | [] => [(k, v)]
  | (k', v') :: rest => if k' = k then (k, v) :: rest else (k', v') :: aset rest k v

/-- Key list of an association list (python dict iteration order). -/
def akeys {α : Type} (m : List (String × α)) : List String :=
  m.map (fun p => p.1)

/-- JSON values as produced by python's `json.loads`, restricted to the
integer-numeral fragment (floats are not modelled). Objects keep field
order; `json.loads` maps objects to python dicts. -/
inductive Json where
  | null : Json
  | bool (b : Bool) : Json
  | num (n : Int) : Json
  | str (s : String) : Json
  | arr (elems : List Json) : Json
  | obj (fields : List (String × Json)) : Json

/-- JSON whitespace. -/
def isJsonWs (c : Char) : Bool :=
  c = ' ' || c = '\t' || c = '\n' || c = '\r'

/-- Skip leading JSON whitespace. -/
def skipWs : List Char → List Char
  | [] => []
  | c :: cs => if isJsonWs c then skipWs cs else c :: cs

/-- Parse the body of a JSON string after the opening quote; returns the
decoded characters and the input after the closing quote. Handles the
simple escape sequences. -/
def parseStrBody : List Char → Option (List Char × List Char)
  | [] => none
  | c :: cs =>
    if c = '"' then some ([], cs)
    else if c = '\\' then
      match cs with
      | [] => none
      | e :: cs2 =>
        let dec : Option Char :=
          if e = '"' then some '"'
          else if e = '\\' then some '\\'
          else if e = '/' then some '/'
          else if e = 'n' then some '\n'
          else if e = 't' then some '\t'
          else if e = 'r' then some '\r'
          else none
        match dec with
        | none => none
        | some d =>
          match parseStrBody cs2 with
          | none => none
          | some (body, rest) => some (d :: body, rest)
    else
      match parseStrBody cs with
      | none => none
      | some (body, rest) => some (c :: body, rest)

/-- Parse a run of decimal digits. -/
def parseDigits : List Char → (List Char × List Char)
  | [] => ([], [])
  | c :: cs =>
    if c.isDigit then
      let (ds, rest) := parseDigits cs
      (c :: ds, rest)
    else ([], c :: cs)

/-- Digits to a natural number. -/
def digitsToNat (ds : List Char) : Nat :=
  ds.foldl (fun acc c => acc * 10 + (c.toNat - 48)) 0

/-- What the recursive-descent JSON parser is currently parsing:
a value, the inside of an object right after `\x7b`, `, "k": v`
continuations of an object, the inside of an array right after `[`,
or `, v` continuations of an array. The continuation forms return
their partial results wrapped in `Json.obj` / `Json.arr`. -/
inductive PReq where
  | val : PReq
  | objRest : PReq
  | objMore : PReq
  | arrRest : PReq
  | arrMore : PReq

/-- Fuel-indexed recursive-descent JSON parser (integer numerals only);
the fuel only bounds nesting/continuation depth and is chosen large
enough by `json_loads`. -/
def parseF : Nat → PReq → List Char → Option (Json × List Char)
  | 0, _, _ => none
  | fuel + 1, .val, l =>
    (match skipWs l with
    | [] => none
    | c :: cs =>
      if c = '"' then
        match parseStrBody cs with
        | none => none
        | some (body, rest) => some (Json.str (String.mk body), rest)
      else if c = '\x7b' then
        parseF fuel .objRest (skipWs cs)
      else if c = '[' then
        parseF fuel .arrRest (skipWs cs)
      else if c = 't' then
        match cs with
        | 'r' :: 'u' :: 'e' :: rest => some (Json.bool true, rest)
        | _ => none
      else if c = 'f' then
        match cs with
        | 'a' :: 'l' :: 's' :: 'e' :: rest => some (Json.bool false, rest)
        | _ => none
      else if c = 'n' then
        match cs with
        | 'u' :: 'l' :: 'l' :: rest => some (Json.null, rest)
        | _ => none
      else if c = '-' then
        match parseDigits cs with
        | ([], _) => none
        | (ds, rest) => some (Json.num (-(digitsToNat ds : Int)), rest)
      else if c.isDigit then
        match parseDigits (c :: cs) with
        | ([], _) => none
        | (ds, rest) => some (Json.num (digitsToNat ds : Int), rest)
      else none)
  | fuel + 1, .objRest, l =>
    (match l with
    | [] => none
    | c :: cs =>
      if c = '\x7d' then some (Json.obj [], cs)
      else if c = '"' then
        match parseStrBody cs with
        | none => none
        | some (key, rest) =>
          match skipWs rest with
          | ':' :: afterColon =>
            match parseF fuel .val afterColon with
            | none => none
            | some (v, afterVal) =>
              match parseF fuel .objMore (skipWs afterVal) with
              | some (Json.obj fields, afterObj) =>
                some (Json.obj ((String.mk key, v) :: fields), afterObj)
              | _ => none
          | _ => none
      else none)
  | fuel + 1, .objMore, l =>
    (match l with
    | [] => none
    | c :: cs =>
      if c = '\x7d' then some (Json.obj [], cs)
      else if c = ',' then
        match skipWs cs with
        | '"' :: afterQuote =>
          match parseStrBody afterQuote with
          | none => none
          | some (key, rest) =>
            match skipWs rest with
            | ':' :: afterColon =>
              match parseF fuel .val afterColon with
              | none => none
              | some (v, afterVal) =>
                match parseF fuel .objMore (skipWs afterVal) with
                | some (Json.obj fields, afterObj) =>
                  some (Json.obj ((String.mk key, v) :: fields), afterObj)
                | _ => none
            | _ => none
        | _ => none
      else none)
  | fuel + 1, .arrRest, l =>
    (match l with
    | [] => none
    | c :: _ =>
      if c = ']' then some (Json.arr [], l.tail)
      else
        match parseF fuel .val l with
        | none => none
        | some (v, afterVal) =>
          match parseF fuel .arrMore (skipWs afterVal) with
          | some (Json.arr elems, afterArr) => some (Json.arr (v :: elems), afterArr)
          | _ => none)
  | fuel + 1, .arrMore, l =>
    (match l with
    | [] => none
    | c :: cs =>
      if c = ']' then some (Json.arr [], cs)
      else if c = ',' then
        match parseF fuel .val cs with
        | none => none
        | some (v, afterVal) =>
          match parseF fuel .arrMore (skipWs afterVal) with
          | some (Json.arr elems, afterArr) => some (Json.arr (v :: elems), afterArr)
          | _ => none
      else none)

/-- Model of python `json.loads`: parse a full JSON document, requiring
only whitespace after the value; `none` models a raised
`json.JSONDecodeError`. -/
def json_loads (s : String) : Option Json :=
  match parseF (s.length + 1) .val s.data with
  | none => none
  | some (v, rest) =>
    match skipWs rest with
    | [] => some v
    | _ => none

/-! ## models/messages.py -/

/-- `ContentBlock = TextContent | ToolUseContent | ToolResultContent`. -/
inductive ContentBlock where
  | text (text : String)
  | toolUse (id : String) (name : String) (input : List (String × Json))
  | toolResult (tool_use_id : String) (content : String) (is_error : Bool)

/-- `Message`: `role` is one of "user"/"assistant"/"system"; `content`
is `str | list[ContentBlock]`. -/
structure Message where
  role : String
  content : String ⊕ List ContentBlock

/-- `Usage` token counts. -/
structure Usage where
  input_tokens : Nat
  output_tokens : Nat

/-- `Response`: LLM response. -/
structure Response where
  id : String
  content : List ContentBlock
  stop_reason : String
  usage : Option Usage

/-- `Response.get_text`: newline-join of the text blocks. -/
def Response.get_text (r : Response) : String :=
  String.intercalate "\n"
    (r.content.filterMap fun b =>
      match b with
      | .text t => some t
      | _ => none)

/-- `Response.get_tool_uses`: the tool-use blocks, as (id, name, input). -/
def Response.get_tool_uses (r : Response) : List (String × String × List (String × Json)) :=
  r.content.filterMap fun b =>
    match b with
    | .toolUse i n inp => some (i, n, inp)
    | _ => none

/-! ## python repr / pydantic str(), as used by memory/truncation.py

`estimate_tokens` computes `block.text if hasattr(block, "text") else
str(block)`. Only `TextContent` has a `text` attribute; for the other
two blocks `str(block)` is pydantic v2's `__str__`, i.e. the
space-joined `field=repr(value)` list in field order. String repr is
modelled without quote/escape special cases (no counterexample below
uses a quote inside a string). -/

/-- `repr()` of a python string. -/
def pyStrRepr (s : String) : String := "\x27" ++ s ++ "\x27"

/-- `repr()` of the python value a `Json` decodes to. -/
def pyRepr : Json → String
  | .null => "None"
  | .bool b => if b then "True" else "False"
  | .num n => toString n
  | .str s => pyStrRepr s
  | .arr xs => "[" ++ String.intercalate ", " (xs.attach.map fun x => pyRepr x.1) ++ "]"
  | .obj fs =>
    "\x7b" ++
      String.intercalate ", "
        (fs.attach.map fun p => pyStrRepr p.1.1 ++ ": " ++ pyRepr p.1.2) ++
    "\x7d"
decreasing_by
  · have h1 := List.sizeOf_lt_of_mem x.2
    have h2 : sizeOf (Json.arr xs) = 1 + sizeOf xs := by simp
    omega
  · have h1 := List.sizeOf_lt_of_mem p.2
    have h2 : sizeOf (Json.obj fs) = 1 + sizeOf fs := by simp
    obtain ⟨⟨a, b⟩, hp⟩ := p
    have h3 : sizeOf (a, b) = 1 + sizeOf a + sizeOf b := by simp
    simp only at h1 ⊢
    omega

/-- `str(block)` (pydantic v2 `__str__`) for a content block. -/
def blockStr : ContentBlock → String
  | .text t => "type=\x27text\x27 text=" ++ pyStrRepr t
  | .toolUse id name input =>
    "type=\x27tool_use\x27 id=" ++ pyStrRepr id ++ " name=" ++ pyStrRepr name ++
      " input=" ++ pyRepr (Json.obj input)
  | .toolResult tid c e =>
    "type=\x27tool_result\x27 tool_use_id=" ++ pyStrRepr tid ++ " content=" ++
      pyStrRepr c ++ " is_error=" ++ (if e then "True" else "False")

/-! ## memory/truncation.py -/

/-- `matchesHere pat l`: does `pat` occur at the head of `l`? -/
def matchesHere : List Char → List Char → Bool
  | [], _ => true
  | _ :: _, [] => false
  | p :: ps, c :: cs => p = c && matchesHere ps cs

/-- `hasSub l pat`: does `pat` occur anywhere in `l`? -/
def hasSub : List Char → List Char → Bool
  | [], pat => pat.isEmpty
  | c :: cs, pat => matchesHere pat (c :: cs) || hasSub cs pat

/-- Python `pat in s` on strings. -/
def strContains (s pat : String) : Bool := hasSub s.data pat.data

/-- `TOKEN_RATIOS`: chars-per-token ratios, as exact rationals
(numerator, denominator): claude 3.5 = 7/2, gpt 4.0 = 4/1,
gemini 3.8 = 19/5, default 4.0. -/
def TOKEN_RATIOS : List (String × (Nat × Nat)) :=
  [("claude", (7, 2)), ("gpt", (4, 1)), ("gemini", (19, 5)), ("default", (4, 1))]

/-- The `for prefix, ratio in TOKEN_RATIOS.items()` scan of
`get_token_ratio`: first non-"default" key occurring in the lowered
model name wins. -/
def ratio_scan : List (String × (Nat × Nat)) → String → Option (Nat × Nat)
  | [], _ => none
  | (pre, r) :: rest, ml =>
    if pre ≠ "default" ∧ strContains ml pre then some r else ratio_scan rest ml

/-- `get_token_ratio(model)`. -/
def token_ratio_for (model : Option String) : Nat × Nat :=
  match model with
  | none => (4, 1)
  | some m => (ratio_scan TOKEN_RATIOS m.toLower).getD (4, 1)

/-- The string measured by `estimate_tokens` for one block:
`block.text if hasattr(block, "text") else str(block)`. -/
def block_text_for_len : ContentBlock → String
  | .text t => t
  | b => blockStr b

/-- `estimate_tokens(message, model)`: `int(len(text)/ratio) + 1` with
the division as an exact rational floor. For `str` content the text is
the content itself; for block-list content it is the `" "`-join of
`block.text if hasattr(block, "text") else str(block)`. -/
def estimate_tokens (message : Message) (model : Option String) : Nat :=
  let text :=
    match message.content with
    | .inl s => s
    | .inr blocks => String.intercalate " " (blocks.map block_text_for_len)
  let r := token_ratio_for model
  text.length * r.2 / r.1 + 1

/-- `sum(estimate_tokens(m) for m in messages)` (model defaulting to None). -/
def sum_tokens (messages : List Message) : Nat :=
  (messages.map fun m => estimate_tokens m none).sum

/-- The `for msg in reversed(messages[1:])` re-admission loop of
`truncate_fifo`: takes the reversed tail, admits greedily while the
budget holds, `break`s at the first overflow. -/
def admit_from_end (max_tokens : Nat) : Nat → List Message → List Message
  | _, [] => []
  | tokens_kept, msg :: rest =>
    let msg_tokens := estimate_tokens msg none
    if tokens_kept + msg_tokens ≤ max_tokens then
      msg :: admit_from_end max_tokens (tokens_kept + msg_tokens) rest
    else []

/-- `truncate_fifo(messages, max_tokens) -> (truncated, tokens_removed)`.
The python loop `result.insert(1, msg)` builds `[messages[0]] ++`
(admitted messages in original order), i.e. the reverse of the
admission order. -/
def truncate_fifo (messages : List Message) (max_tokens : Nat) : List Message × Nat :=
  match messages with
  | [] => ([], 0)
  | first :: rest =>
    let total_tokens := sum_tokens (first :: rest)
    if total_tokens ≤ max_tokens then (first :: rest, 0)
    else
      let tokens_kept0 := estimate_tokens first none
      let admitted := admit_from_end max_tokens tokens_kept0 rest.reverse
      (first :: admitted.reverse, total_tokens - (tokens_kept0 + sum_tokens admitted))

/-! ## tools/base.py and tools/registry.py

A raised python exception is modelled as `Except.error s` where `s` is
the exception's `str()`. -/

/-- `ToolResult`. -/
structure ToolResult where
  output : String
  success : Bool
  error : Option String

/-- `ToolContext`. -/
structure ToolContext where
  working_dir : String
  session_id : String

/-- A `Tool`: its `name` and its (async) `execute`, which may raise. -/
structure Tool where
  name : String
  execute : ToolContext → List (String × Json) → Except String ToolResult

/-- `ToolRegistry`: `_tools` keyed by tool name. -/
structure ToolRegistry where
  tools : List (String × Tool)

/-- `ToolRegistry.register`: `self._tools[tool.name] = tool`. -/
def ToolRegistry.register (reg : ToolRegistry) (tool : Tool) : ToolRegistry :=
  ⟨aset reg.tools tool.name tool⟩

/-- `ToolRegistry.execute(name, ctx, **kwargs)`: unknown names and
raised tool faults are converted to failed `ToolResult`s. -/
def ToolRegistry.execute (reg : ToolRegistry) (name : String) (ctx : ToolContext)
    (kwargs : List (String × Json)) : ToolResult :=
  match alookup reg.tools name with
  | none => ⟨"Tool not found: " ++ name, false, some ("Unknown tool: " ++ name)⟩
  | some tool =>
    match tool.execute ctx kwargs with
    | .ok r => r
    | .error e => ⟨e, false, some e⟩

/-! ## agents (base config, short-term memory, agents/react.py) -/

/-- `AgentConfig` (the fields `ReActAgent.run` reads). -/
structure AgentConfig where
  system_prompt : String
  max_iterations : Nat
  max_context_tokens : Nat

/-- Python `l[-n:]` for `n ≥ 0` (`l[-0:]` is the whole list). -/
def lastSlice {α : Type} (n : Nat) (l : List α) : List α :=
  if n = 0 then l else l.drop (l.length - n)

/-- `ShortTermMemory` (FIFO strategy, the default). -/
structure ShortTermMemory where
  messages : List Message
  max_messages : Nat

/-- `ShortTermMemory.add`: append, then cap to the last `max_messages`. -/
def ShortTermMemory.add (mem : ShortTermMemory) (m : Message) : ShortTermMemory :=
  let msgs := mem.messages ++ [m]
  ⟨if msgs.length > mem.max_messages then lastSlice mem.max_messages msgs else msgs,
   mem.max_messages⟩

/-- `ShortTermMemory.truncate` with the FIFO strategy. -/
def ShortTermMemory.truncate (mem : ShortTermMemory) (max_tokens : Nat) : ShortTermMemory :=
  ⟨(truncate_fifo mem.messages max_tokens).1, mem.max_messages⟩

/-- `ReActAgent._execute_tools`: run every tool-use block of the
response and add the results to memory as one user message. -/
def execute_tools (tools : ToolRegistry) (working_dir : String)
    (mem : ShortTermMemory) (response : Response) : ShortTermMemory :=
  let tool_uses := response.get_tool_uses
  let ctx : ToolContext := ⟨working_dir, "default"⟩
  let results : List ContentBlock := tool_uses.map fun tu =>
    let result := tools.execute tu.2.1 ctx tu.2.2
    ContentBlock.toolResult tu.1 result.output (!result.success)
  mem.add ⟨"user", .inr results⟩

/-- The `for iteration in range(max_iterations)` loop of
`ReActAgent.run`, as a countdown. The provider's `complete` is
modelled as a function of the message list (tool schemas and system
prompt are per-run constants absorbed into it). -/
def react_loop (provider : List Message → Response) (tools : ToolRegistry)
    (working_dir : String) : Nat → ShortTermMemory → Response
  | 0, _ =>
    ⟨"max_iterations", [ContentBlock.text "Maximum iterations reached"], "max_iterations", none⟩
  | n + 1, mem =>
    let response := provider mem.messages
    let mem2 := mem.add ⟨"assistant", .inr response.content⟩
    if response.stop_reason = "end_turn" then response
    else if response.stop_reason = "tool_use" then
      react_loop provider tools working_dir n (execute_tools tools working_dir mem2 response)
    else react_loop provider tools working_dir n mem2

/-- `ReActAgent.run(query)`. -/
def ReActAgent.run (provider : List Message → Response) (tools : ToolRegistry)
    (config : AgentConfig) (working_dir : String) (mem : ShortTermMemory)
    (query : String) : Response :=
  let mem1 := mem.add ⟨"user", .inl query⟩
  let mem2 := mem1.truncate config.max_context_tokens
  react_loop provider tools working_dir config.max_iterations mem2

/-! ## agents/react.py: run_stream's event collection -/

/-- Streaming events (models/messages.py). -/
inductive StreamEvent where
  | textDelta (text : String)
  | toolUseStart (id : String) (name : String)
  | toolUseInput (id : String) (input_delta : String)
  | messageStop (stop_reason : String) (usage : Option Usage)
  | toolExecuting (tool_name : String) (tool_id : String)
  | toolResultEv (tool_name : String) (tool_id : String) (success : Bool) (output : String)

/-- The python dict `\x7b"id", "name", "input"\x7d` tracking one tool
call during streaming; `input` is whatever `json.loads` produced. -/
structure StreamTool where
  id : String
  name : String
  input : Json

/-- The loop state of `run_stream`'s `async for` event loop. -/
structure StreamState where
  collected_text : String
  tool_uses : List StreamTool
  current_tool : Option StreamTool
  tool_input_buffers : List (String × String)
  stop_reason : String

/-- The finalize block of `run_stream`: `if input_json: try parse
except substitute \x7b\x7d`, else keep the current input. -/
def finalize_tool_input (input0 : Json) (input_json : String) : Json :=
  if input_json = "" then input0
  else
    match json_loads input_json with
    | some j => j
    | none => Json.obj []

/-- One step of `run_stream`'s `async for` dispatch. -/
def stream_step (st : StreamState) (e : StreamEvent) : StreamState :=
  match e with
  | .textDelta t => { st with collected_text := st.collected_text ++ t }
  | .toolUseStart id name =>
    let st2 :=
      match st.current_tool with
      | some ct =>
        let input_json := (alookup st.tool_input_buffers ct.id).getD ""
        { st with
          tool_uses :=
            st.tool_uses ++ [{ ct with input := finalize_tool_input ct.input input_json }] }
      | none => st
    { st2 with
      current_tool := some ⟨id, name, Json.obj []⟩,
      tool_input_buffers := aset st2.tool_input_buffers id "" }
  | .toolUseInput id delta =>
    { st with
      tool_input_buffers :=
        aset st.tool_input_buffers id ((alookup st.tool_input_buffers id).getD "" ++ delta) }
  | .messageStop r _ =>
    let st2 := { st with stop_reason := r }
    match st2.current_tool with
    | some ct =>
      let input_json := (alookup st2.tool_input_buffers ct.id).getD ""
      { st2 with
        tool_uses :=
          st2.tool_uses ++ [{ ct with input := finalize_tool_input ct.input input_json }] }
    | none => st2
  | _ => st

/-- Fold one provider stream's events, starting from the per-iteration
initial state of `run_stream`. -/
def stream_collect (events : List StreamEvent) : StreamState :=
  events.foldl stream_step ⟨"", [], none, [], "end_turn"⟩

/-! ## patterns/pipeline.py -/

/-- A pipeline stage; the agent's `run` may raise. -/
structure PipelineStage where
  name : String
  agent : String → Except String Response
  transform : Option (String → Response → String)

/-- `PipelineResult`. -/
structure PipelineResult where
  success : Bool
  stages_completed : Nat
  final_response : Option Response
  stage_responses : List (String × Response)
  error : Option String
  failed_stage : Option String

/-- `if stage.transform and last_response: current_query =
stage.transform(initial_query, last_response)`. -/
def next_query (stage : PipelineStage) (initial_query current_query : String)
    (last : Option Response) : String :=
  match stage.transform, last with
  | some tf, some lr => tf initial_query lr
  | _, _ => current_query

/-- The `for i, stage in enumerate(self._stages)` loop of
`Pipeline.run`. -/
def pipeline_go (stop_on_error : Bool) (initial_query : String) :
    List PipelineStage → Nat → String → Option Response → List (String × Response) →
    PipelineResult
  | [], i, _, last, resps => ⟨true, i, last, resps, none, none⟩
  | stage :: rest, i, current_query, last, resps =>
    let q := next_query stage initial_query current_query last
    match stage.agent q with
    | .ok response =>
      pipeline_go stop_on_error initial_query rest (i + 1) response.get_text
        (some response) (aset resps stage.name response)
    | .error e =>
      if stop_on_error then ⟨false, i, last, resps, some e, some stage.name⟩
      else pipeline_go stop_on_error initial_query rest (i + 1) q last resps

/-- `Pipeline.run(initial_query)`; at the end `stages_completed` is the
number of stages iterated, which at the final return equals
`len(self._stages)`. -/
def Pipeline.run (stop_on_error : Bool) (stages : List PipelineStage)
    (initial_query : String) : PipelineResult :=
  pipeline_go stop_on_error initial_query stages 0 initial_query none []

/-! ## patterns/routing.py: Router.add_route -/

/-- The predicate source stored in a `RoutingRule`, kept syntactic:
`custom` is a user condition, the other two are the closures built by
`_make_pattern_condition` / `_make_keyword_condition`. -/
inductive RoutePred where
  | custom (f : String → Bool)
  | patternCond (pattern : String)
  | keywordCond (keywords : List String)

/-- `RoutingRule`. -/
structure RoutingRule where
  name : String
  agent : String → Except String Response
  condition : RoutePred
  priority : Int
  metadata : Option (List (String × Json))

/-- `RouterConfig`. -/
structure RouterConfig where
  default_agent : Option String
  fallback_message : String

/-- `Router` state. -/
structure Router where
  config : RouterConfig
  routes : List RoutingRule
  agents : List (String × (String → Except String Response))

/-- Stable insert for descending priority (ties keep the existing
order), matching python's stable `sort(key=lambda r: -r.priority)`. -/
def insert_by_priority : List RoutingRule → RoutingRule → List RoutingRule
  | [], rule => [rule]
  | r :: rs, rule =>
    if rule.priority ≤ r.priority then r :: insert_by_priority rs rule
    else rule :: r :: rs

/-- Stable sort by descending priority. -/
def sort_routes (routes : List RoutingRule) : List RoutingRule :=
  routes.foldl insert_by_priority []

/-- `Router.add_route`: python truthiness decides which predicate
source is used (`if condition: ... elif pattern: ... elif keywords:
... else raise`); an empty pattern string or an empty keyword list is
falsy. On the raising path python has already stored the agent; the
`Except.error` models only the raise. -/
def Router.add_route (router : Router) (name : String)
    (agent : String → Except String Response) (keywords : Option (List String))
    (pattern : Option String) (condition : Option (String → Bool)) (priority : Int)
    (metadata : List (String × Json)) : Except String Router :=
  let agents2 := aset router.agents name agent
  let chosen : Option RoutePred :=
    match condition with
    | some c => some (.custom c)
    | none =>
      match pattern with
      | some p =>
        if p = "" then
          match keywords with
          | some ks => if ks.isEmpty then none else some (.keywordCond ks)
          | none => none
        else some (.patternCond p)
      | none =>
        match keywords with
        | some ks => if ks.isEmpty then none else some (.keywordCond ks)
        | none => none
  match chosen with
  | none => .error "Must provide keywords, pattern, or condition"
  | some rc =>
    .ok { router with
          agents := agents2,
          routes := sort_routes (router.routes ++
            [⟨name, agent, rc, priority, if metadata.isEmpty then none else some metadata⟩]) }

/-- Does an `Except` model a raised exception? -/
def isRaise {α : Type} : Except String α → Bool
  | .error _ => true
  | .ok _ => false

/-! ## patterns/orchestrator.py -/

/-- `OrchestratorConfig`. -/
structure OrchestratorConfig where
  max_parallel : Nat
  fail_fast : Bool
  timeout : Option Nat

/-- `TaskResult`. -/
structure TaskResult where
  agent_name : String
  success : Bool
  response : Option Response
  error : Option String

/-- `Task.query`: `str | Callable[[dict], str]`. -/
inductive TaskQuery where
  | str (s : String)
  | fn (f : List (String × TaskResult) → String)

/-- A `Task`: the agent was resolved from the registry at `add_task`
time, so only its `run` is carried. -/
structure Task where
  name : String
  agent : String → Except String Response
  query : TaskQuery
  depends_on : List String

/-- `Orchestrator` state. -/
structure Orchestrator where
  config : OrchestratorConfig
  agents : List (String × (String → Except String Response))
  tasks : List Task

/-- `Orchestrator.add_agent`. -/
def Orchestrator.add_agent (o : Orchestrator) (name : String)
    (agent : String → Except String Response) : Orchestrator :=
  { o with agents := aset o.agents name agent }

/-- `Orchestrator.add_task`: raises if the agent name is unregistered. -/
def Orchestrator.add_task (o : Orchestrator) (name agent_name : String)
    (query : TaskQuery) (dependsOn : Option (List String)) : Except String Orchestrator :=
  match alookup o.agents agent_name with
  | none => .error ("Agent \x27" ++ agent_name ++ "\x27 not registered")
  | some agent =>
    .ok { o with tasks := o.tasks ++ [⟨name, agent, query, dependsOn.getD []⟩] }

/-- `\x7btask.name: task for task in self._tasks\x7d`. -/
def task_map_of (tasks : List Task) : List (String × Task) :=
  tasks.foldl (fun m t => aset m t.name t) []

/-- The dependency edges `(dep, name)` built by `_topological_sort`
(`graph[dep].append(name)` guarded by `dep in graph`), in iteration
order. -/
def edges_of (taskMap : List (String × Task)) : List (String × String) :=
  taskMap.flatMap fun p =>
    p.2.depends_on.filterMap fun dep =>
      if dep ∈ akeys taskMap then some (dep, p.1) else none

/-- The `in_degree` dict: all names at 0, then `+= 1` per edge.
Python ints may go negative during the loop, hence `Int`. -/
def indeg_init (names : List String) (edges : List (String × String)) :
    List (String × Int) :=
  edges.foldl (fun m e => aset m e.2 ((alookup m e.2).getD 0 + 1)) (names.map fun n => (n, 0))

/-- `graph[current]`: the dependents of `current`, in edge order. -/
def dependents_of (edges : List (String × String)) (current : String) : List String :=
  edges.filterMap fun e => if e.1 = current then some e.2 else none

/-- The `for dependent in graph[current]` decrement loop: decrement,
and append to the queue exactly when the new value is 0. -/
def dec_deps : List String → List (String × Int) → List String →
    (List (String × Int) × List String)
  | [], indeg, queue => (indeg, queue)
  | y :: ys, indeg, queue =>
    let v := (alookup indeg y).getD 0 - 1
    dec_deps ys (aset indeg y v) (if v = 0 then queue ++ [y] else queue)

/-- The `while queue` loop of Kahn's algorithm (`queue.pop(0)` from the
front, appends at the back), fuel-bounded; the fuel chosen by
`topological_sort` dominates the possible number of pops. -/
def kahn_loop (edges : List (String × String)) :
    Nat → List String → List (String × Int) → List String → List String
  | 0, _, _, result => result
  | _ + 1, [], _, result => result
  | fuel + 1, current :: queue, indeg, result =>
    let s := dec_deps (dependents_of edges current) indeg queue
    kahn_loop edges fuel s.2 s.1 (result ++ [current])

/-- `Orchestrator._topological_sort`. -/
def topological_sort (taskMap : List (String × Task)) : Except String (List String) :=
  let names := akeys taskMap
  let edges := edges_of taskMap
  let indeg := indeg_init names edges
  let queue := names.filter fun n => (alookup indeg n).getD 0 = 0
  let result := kahn_loop edges (names.length + 1) queue indeg []
  if result.length ≠ names.length then .error "Circular dependency detected in tasks"
  else .ok result

/-- The mutable state of `Orchestrator.run`'s task loop, plus a log of
the tasks whose agent was actually invoked (the observable effect of
`await task.agent.run(query)`). -/
structure RunState where
  results : List (String × TaskResult)
  completed : List String
  context : List (String × TaskResult)
  log : List String

/-- The `for dep in task.depends_on` check. NOTE the python `continue`
in this loop only skips to the next dependency — it does not skip the
task's execution — so this check can only raise or update `results`. -/
def dep_check (fail_fast : Bool) (task_name : String) (completed : List String) :
    List String → List (String × TaskResult) →
    Except String (List (String × TaskResult))
  | [], results => .ok results
  | dep :: deps, results =>
    if dep ∉ completed then
      .error ("Dependency \x27" ++ dep ++ "\x27 not satisfied for \x27" ++ task_name ++ "\x27")
    else
      match alookup results dep with
      | none => .error ("KeyError: \x27" ++ dep ++ "\x27")
      | some depResult =>
        if fail_fast ∧ ¬depResult.success then
          dep_check fail_fast task_name completed deps
            (aset results task_name
              ⟨task_name, false, none, some ("Dependency \x27" ++ dep ++ "\x27 failed")⟩)
        else dep_check fail_fast task_name completed deps results

/-- The `for task_name in execution_order` loop of `Orchestrator.run`.
On a raised agent fault with `fail_fast`, the loop `break`s and `run`
returns the results collected so far. -/
def run_tasks (cfg : OrchestratorConfig) (taskMap : List (String × Task)) :
    List String → RunState → List String × Except String (List (String × TaskResult))
  | [], st => (st.log, .ok st.results)
  | tname :: order, st =>
    match alookup taskMap tname with
    | none => (st.log, .error ("KeyError: \x27" ++ tname ++ "\x27"))
    | some task =>
      match dep_check cfg.fail_fast tname st.completed task.depends_on st.results with
      | .error e => (st.log, .error e)
      | .ok results1 =>
        let query := match task.query with | .str s => s | .fn f => f st.context
        let log2 := st.log ++ [tname]
        match task.agent query with
        | .ok response =>
          let result : TaskResult := ⟨tname, true, some response, none⟩
          run_tasks cfg taskMap order
            ⟨aset results1 tname result, st.completed ++ [tname],
             aset st.context tname result, log2⟩
        | .error e =>
          let result : TaskResult := ⟨tname, false, none, some e⟩
          if cfg.fail_fast then (log2, .ok (aset results1 tname result))
          else
            run_tasks cfg taskMap order
              ⟨aset results1 tname result, st.completed ++ [tname],
               aset st.context tname result, log2⟩

/-- `Orchestrator.run()`: the returned pair is (invocation log,
results-or-raise). -/
def Orchestrator.run (o : Orchestrator) :
    List String × Except String (List (String × TaskResult)) :=
  let taskMap := task_map_of o.tasks
  match topological_sort taskMap with
  | .error e => ([], .error e)
  | .ok order => run_tasks o.config taskMap order ⟨[], [], [], []⟩

/-! ## Specification-side definitions and proof measures -/

/-- The per-block measured length stated by the (amended) spec of
`estimate_tokens`: a text block contributes its text's length, a
tool-call or tool-result block the length of its `str()` repr. -/
def spec_block_len : ContentBlock → Nat
  | .text t => t.length
  | b => (blockStr b).length

/-- `estimate_tokens` as the spec words it, structured as a per-block
sum with one separator character between consecutive blocks, to be
compared with the source embedding. -/
def estimate_tokens_spec (message : Message) (model : Option String) : Nat :=
  let n :=
    match message.content with
    | .inl s => s.length
    | .inr [] => 0
    | .inr (b :: bs) => spec_block_len b + (bs.map fun b2 => 1 + spec_block_len b2).sum
  let r := token_ratio_for model
  n * r.2 / r.1 + 1

/-- A witness that the dependency graph of `taskMap` is cyclic: a
nonempty set `S` of task names each of which depends on some member of
`S`. Every dependency cycle yields such an `S` (the cycle's support),
and conversely such an `S` contains a cycle. -/
def has_dep_cycle (taskMap : List (String × Task)) (S : List String) : Prop :=
  S ≠ [] ∧ ∀ s ∈ S, ∃ t, alookup taskMap s = some t ∧ ∃ d ∈ S, d ∈ t.depends_on

/-- Proof measure for Kahn's algorithm: the number of edges into `x`
whose source has not yet been emitted. -/
def ecount (edges : List (String × String)) (res : List String) (x : String) : Nat :=
  edges.countP fun e => e.2 = x ∧ e.1 ∉ res

/-- The invariant of the `while queue` loop of Kahn's algorithm:
queue and emitted result are disjoint and duplicate-free and lie in
the task-name set; every in-degree equals the count of edges from
not-yet-emitted sources; queue and result members have in-degree 0;
and no member of the cycle witness `S` ever reaches queue or result. -/
def kahn_inv (edges : List (String × String)) (names S : List String)
    (queue : List String) (indeg : List (String × Int)) (result : List String) : Prop :=
  (queue ++ result).Nodup ∧
  (∀ x ∈ names, (alookup indeg x).getD 0 = (ecount edges result x : Int)) ∧
  (∀ q ∈ queue, q ∈ names) ∧
  (∀ r ∈ result, r ∈ names) ∧
  (∀ q ∈ queue ++ result, (alookup indeg q).getD 0 = 0) ∧
  (∀ s ∈ S, s ∉ queue ++ result)

/-! ## Concrete fixtures for witnesses and counterexamples -/

/-- A fixed successful response. -/
def cResp : Response := ⟨"r", [ContentBlock.text "done"], "end_turn", none⟩

/-- An agent whose `run` always succeeds with `cResp`. -/
def cOkAgent : String → Except String Response := fun _ => .ok cResp

/-- An agent whose `run` always raises `boom`. -/
def cBoomAgent : String → Except String Response := fun _ => .error "boom"

/-- Tasks `\x7bA: [], B: [A], C: [B]\x7d` with succeeding agents. -/
def cTasksABC : List Task :=
  [⟨"A", cOkAgent, .str "qa", []⟩, ⟨"B", cOkAgent, .str "qb", ["A"]⟩,
   ⟨"C", cOkAgent, .str "qc", ["B"]⟩]

/-- Tasks `\x7bA: [B], B: [A]\x7d`: a dependency cycle. -/
def cTasksCyc : List Task :=
  [⟨"A", cOkAgent, .str "qa", ["B"]⟩, ⟨"B", cOkAgent, .str "qb", ["A"]⟩]

/-- Tasks where `A`'s agent raises and `B` depends on `A`. -/
def cTasksFail : List Task :=
  [⟨"A", cBoomAgent, .str "qa", []⟩, ⟨"B", cOkAgent, .str "qb", ["A"]⟩]

/-- An orchestrator config with `fail_fast` (the default). -/
def cFailFastCfg : OrchestratorConfig := ⟨5, true, none⟩

/-- Three pipeline stages whose second raises. -/
def cStages3 : List PipelineStage :=
  [⟨"s1", cOkAgent, none⟩, ⟨"s2", cBoomAgent, none⟩, ⟨"s3", cOkAgent, none⟩]

/-! # Theorems -/

/-! ## Association-list lemmas -/

theorem alookup_aset_self {α : Type} (m : List (String × α)) (k : String) (v : α) :
    alookup (aset m k v) k = some v := by
  induction m with
  | nil => simp [aset, alookup]
  | cons p rest ih =>
    obtain ⟨k', v'⟩ := p
    by_cases h : k' = k
    · simp [aset, alookup, h]
    · simp [aset, alookup, h, ih]

theorem alookup_aset_ne {α : Type} (m : List (String × α)) (k k' : String) (v : α)
    (h : k ≠ k') : alookup (aset m k v) k' = alookup m k' := by
  induction m with
  | nil => simp [aset, alookup, h]
  | cons p rest ih =>
    obtain ⟨k0, v0⟩ := p
    by_cases h0 : k0 = k
    · subst h0
      simp [aset, alookup, h]
    · simp [aset, alookup, h0, ih]

theorem mem_aset {α : Type} (m : List (String × α)) (k : String) (v : α) :
    ∀ p ∈ aset m k v, p ∈ m ∨ p = (k, v) := by
  induction m with
  | nil => intro p hp; simp [aset] at hp; right; exact hp
  | cons q rest ih =>
    intro p hp
    obtain ⟨k0, v0⟩ := q
    by_cases h0 : k0 = k
    · simp [aset, h0] at hp
      rcases hp with h | h
      · right; simp [h]
      · left; simp [h]
    · simp [aset, h0] at hp
      rcases hp with h | h
      · left; simp [h]
      · rcases ih p h with h1 | h1
        · left; simp [h1]
        · right; exact h1

theorem akeys_aset {α : Type} (m : List (String × α)) (k : String) (v : α) :
    akeys (aset m k v) = if k ∈ akeys m then akeys m else akeys m ++ [k] := by
  induction m with
  | nil => simp [aset, akeys]
  | cons p rest ih =>
    obtain ⟨k0, v0⟩ := p
    by_cases h0 : k0 = k
    · subst h0
      simp [aset, akeys]
    · have hne : ¬k = k0 := fun h => h0 h.symm
      simp only [aset, if_neg h0, akeys, List.map_cons]
      rw [show List.map (fun p : String × α => p.1) (aset rest k v)
            = akeys (aset rest k v) from rfl, ih]
      by_cases hk : k ∈ akeys rest <;> simp only [akeys] at hk <;>
        simp [akeys, hne, hk]

theorem aset_aset {α : Type} (m : List (String × α)) (k : String) (v w : α) :
    aset (aset m k v) k w = aset m k w := by
  induction m with
  | nil => simp [aset]
  | cons p rest ih =>
    obtain ⟨k0, v0⟩ := p
    by_cases h0 : k0 = k
    · simp [aset, h0]
    · simp [aset, h0, ih]

theorem alookup_some_mem {α : Type} (m : List (String × α)) (k : String) (v : α)
    (h : alookup m k = some v) : (k, v) ∈ m := by
  induction m with
  | nil => simp [alookup] at h
  | cons p rest ih =>
    obtain ⟨k0, v0⟩ := p
    by_cases h0 : k0 = k
    · subst h0
      simp [alookup] at h
      simp [h]
    · simp [alookup, h0] at h
      simp [ih h]

theorem alookup_some_key_mem {α : Type} (m : List (String × α)) (k : String) (v : α)
    (h : alookup m k = some v) : k ∈ akeys m := by
  have := alookup_some_mem m k v h
  simp only [akeys, List.mem_map]
  exact ⟨(k, v), this, rfl⟩

/-! ## C1: ToolRegistry.execute -/

/-- C1: `ToolRegistry.execute` never raises (it is a total function
into `ToolResult` — python catches every `Exception`): an unregistered
name yields `success=false` with `error="Unknown tool: <name>"`, and a
raised tool fault `e` yields
`ToolResult\x7boutput=str(e), success=false, error=str(e)\x7d`. -/
theorem C1_registry_execute_total (reg : ToolRegistry) (name : String)
    (ctx : ToolContext) (kwargs : List (String × Json)) :
    (alookup reg.tools name = none →
      reg.execute name ctx kwargs =
        ⟨"Tool not found: " ++ name, false, some ("Unknown tool: " ++ name)⟩) ∧
    (∀ tool e, alookup reg.tools name = some tool →
      tool.execute ctx kwargs = .error e →
      reg.execute name ctx kwargs = ⟨e, false, some e⟩) ∧
    (∀ tool r, alookup reg.tools name = some tool →
      tool.execute ctx kwargs = .ok r →
      reg.execute name ctx kwargs = r) := by
  refine ⟨fun h => ?_, fun tool e h he => ?_, fun tool r h hr => ?_⟩
  · simp [ToolRegistry.execute, h]
  · simp [ToolRegistry.execute, h, he]
  · simp [ToolRegistry.execute, h, hr]

/-- C1 witness: a registry holding one always-raising tool converts
the fault, and an unknown name is reported without raising. -/
theorem C1_registry_execute_total_witness :
    ToolRegistry.execute ⟨[("bad", ⟨"bad", fun _ _ => .error "kaput"⟩)]⟩ "bad"
        ⟨".", "default"⟩ [] = ⟨"kaput", false, some "kaput"⟩ ∧
    ToolRegistry.execute ⟨[]⟩ "nope" ⟨".", "default"⟩ [] =
      ⟨"Tool not found: " ++ "nope", false, some ("Unknown tool: " ++ "nope")⟩ :=
  ⟨(C1_registry_execute_total ⟨[("bad", ⟨"bad", fun _ _ => .error "kaput"⟩)]⟩ "bad"
      ⟨".", "default"⟩ []).2.1 ⟨"bad", fun _ _ => .error "kaput"⟩ "kaput" rfl rfl,
   (C1_registry_execute_total ⟨[]⟩ "nope" ⟨".", "default"⟩ []).1 rfl⟩

/-! ## C2: ReActAgent.run terminal stop reasons -/

/-- The loop invariant behind C2: whatever the provider answers, the
loop's result stops with `end_turn` or `max_iterations`, and if the
provider never answers `end_turn` the synthetic max-iterations
response is returned. -/
theorem react_loop_terminal (provider : List Message → Response) (tools : ToolRegistry)
    (wd : String) : ∀ (n : Nat) (mem : ShortTermMemory),
    ((react_loop provider tools wd n mem).stop_reason = "end_turn" ∨
      (react_loop provider tools wd n mem).stop_reason = "max_iterations") ∧
    ((∀ msgs, (provider msgs).stop_reason ≠ "end_turn") →
      react_loop provider tools wd n mem =
        ⟨"max_iterations", [ContentBlock.text "Maximum iterations reached"],
         "max_iterations", none⟩) := by
  intro n
  induction n with
  | zero =>
    intro mem
    exact ⟨Or.inr rfl, fun _ => rfl⟩
  | succ n ih =>
    intro mem
    constructor
    · simp only [react_loop]
      by_cases h : (provider mem.messages).stop_reason = "end_turn"
      · simp only [if_pos h]
        exact Or.inl h
      · simp only [if_neg h]
        by_cases h2 : (provider mem.messages).stop_reason = "tool_use"
        · simp only [if_pos h2]
          exact (ih _).1
        · simp only [if_neg h2]
          exact (ih _).1
    · intro hne
      simp only [react_loop, if_neg (hne mem.messages)]
      by_cases h2 : (provider mem.messages).stop_reason = "tool_use"
      · simp only [if_pos h2]
        exact (ih _).2 hne
      · simp only [if_neg h2]
        exact (ih _).2 hne

/-- C2: `ReActAgent.run` only ever returns `stop_reason` `end_turn` or
`max_iterations` (never `tool_use`), and when the provider never stops
with `end_turn` within the iteration budget the result is the
synthetic `Response` with a single text block
"Maximum iterations reached" — returned normally, not raised (the
model is a total function). -/
theorem C2_react_run_terminal (provider : List Message → Response) (tools : ToolRegistry)
    (config : AgentConfig) (wd : String) (mem : ShortTermMemory) (query : String) :
    ((ReActAgent.run provider tools config wd mem query).stop_reason = "end_turn" ∨
      (ReActAgent.run provider tools config wd mem query).stop_reason = "max_iterations") ∧
    (ReActAgent.run provider tools config wd mem query).stop_reason ≠ "tool_use" ∧
    ((∀ msgs, (provider msgs).stop_reason ≠ "end_turn") →
      ReActAgent.run provider tools config wd mem query =
        ⟨"max_iterations", [ContentBlock.text "Maximum iterations reached"],
         "max_iterations", none⟩) := by
  have h := react_loop_terminal provider tools wd config.max_iterations
    ((mem.add ⟨"user", .inl query⟩).truncate config.max_context_tokens)
  refine ⟨h.1, ?_, h.2⟩
  rcases h.1 with h1 | h1 <;> rw [ReActAgent.run] <;> rw [h1] <;> simp

/-- C2 witness: with a provider that always wants tools and 3
iterations, the run returns the synthetic max-iterations response. -/
theorem C2_react_run_terminal_witness :
    ReActAgent.run (fun _ => ⟨"r", [ContentBlock.toolUse "1" "t" []], "tool_use", none⟩)
        ⟨[]⟩ ⟨"sys", 3, 1000⟩ "." ⟨[], 100⟩ "hi" =
      ⟨"max_iterations", [ContentBlock.text "Maximum iterations reached"],
       "max_iterations", none⟩ :=
  (C2_react_run_terminal (fun _ => ⟨"r", [ContentBlock.toolUse "1" "t" []], "tool_use", none⟩)
      ⟨[]⟩ ⟨"sys", 3, 1000⟩ "." ⟨[], 100⟩ "hi").2.2 (fun _ => by simp)

/-! ## C8: Pipeline.run with stop_on_error -/

/-- The loop invariant behind C8: a failed `stop_on_error` run stopped
at some remaining stage `k`, reporting `i + k` completed stages and
stage `k`'s name. -/
theorem pipeline_go_failure (initial_query : String) :
    ∀ (stages : List PipelineStage) (i : Nat) (q : String) (last : Option Response)
      (resps : List (String × Response)),
      (pipeline_go true initial_query stages i q last resps).success = false →
      ∃ k, ∃ hk : k < stages.length,
        (pipeline_go true initial_query stages i q last resps).stages_completed = i + k ∧
        (pipeline_go true initial_query stages i q last resps).failed_stage =
          some ((stages.get ⟨k, hk⟩).name) := by
  intro stages
  induction stages with
  | nil =>
    intro i q last resps h
    simp [pipeline_go] at h
  | cons stage rest ih =>
    intro i q last resps h
    simp only [pipeline_go] at h ⊢
    cases hag : stage.agent (next_query stage initial_query q last) with
    | ok response =>
      rw [hag] at h
      simp only [hag] at h ⊢
      obtain ⟨k, hk, h1, h2⟩ := ih (i + 1) _ _ _ h
      refine ⟨k + 1, by simpa using Nat.succ_lt_succ hk, ?_, ?_⟩
      · rw [h1]; omega
      · simpa using h2
    | error e =>
      simp only [hag] at h ⊢
      exact ⟨0, by simp, by simp, by simp⟩

/-- C8: with `stop_on_error`, a failed `Pipeline.run` returns
immediately from a raised stage fault, with `stages_completed` equal
to the index of (= the number of completed stages before) the failing
stage and `failed_stage` its name; concretely, three stages whose
second raises yield `success=False`, `stages_completed=1`,
`failed_stage="s2"`. -/
theorem C8_pipeline_stop_on_error :
    (∀ (stages : List PipelineStage) (q : String),
      (Pipeline.run true stages q).success = false →
      ∃ k, ∃ hk : k < stages.length,
        (Pipeline.run true stages q).stages_completed = k ∧
        (Pipeline.run true stages q).failed_stage = some ((stages.get ⟨k, hk⟩).name)) ∧
    Pipeline.run true cStages3 "start" =
      ⟨false, 1, some cResp, [("s1", cResp)], some "boom", some "s2"⟩ := by
  constructor
  · intro stages q h
    obtain ⟨k, hk, h1, h2⟩ := pipeline_go_failure q stages 0 q none [] h
    exact ⟨k, hk, by simpa using h1, h2⟩
  · rfl

/-- C8 witness: the general clause applied to the concrete three-stage
pipeline whose second stage raises. -/
theorem C8_pipeline_stop_on_error_witness :
    ∃ k, ∃ hk : k < cStages3.length,
      (Pipeline.run true cStages3 "start").stages_completed = k ∧
      (Pipeline.run true cStages3 "start").failed_stage =
        some ((cStages3.get ⟨k, hk⟩).name) :=
  C8_pipeline_stop_on_error.1 cStages3 "start" rfl

/-! ## C6: truncate_fifo and the budget -/

/-- Admitting greedily never exceeds the budget: if the tokens kept so
far fit, they still fit after the admission loop. -/
theorem admit_from_end_le (max_tokens : Nat) :
    ∀ (l : List Message) (kept : Nat), kept ≤ max_tokens →
      kept + sum_tokens (admit_from_end max_tokens kept l) ≤ max_tokens := by
  intro l
  induction l with
  | nil =>
    intro kept h
    simpa [admit_from_end, sum_tokens] using h
  | cons msg rest ih =>
    intro kept h
    simp only [admit_from_end]
    by_cases hle : kept + estimate_tokens msg none ≤ max_tokens
    · simp only [if_pos hle]
      have h2 := ih (kept + estimate_tokens msg none) hle
      simp only [sum_tokens, List.map_cons, List.sum_cons] at h2 ⊢
      omega
    · simp only [if_neg hle]
      simpa [sum_tokens] using h

/-- If the kept tokens already exceed the budget, nothing is admitted
(every message estimate is at least 1). -/
theorem admit_from_end_over (max_tokens : Nat) (l : List Message) (kept : Nat)
    (h : max_tokens < kept) : admit_from_end max_tokens kept l = [] := by
  cases l with
  | nil => rfl
  | cons msg rest =>
    simp only [admit_from_end]
    have hn : ¬(kept + estimate_tokens msg none ≤ max_tokens) := by omega
    simp [hn]

/-- Token sums are invariant under reversal. -/
theorem sum_tokens_reverse (l : List Message) : sum_tokens l.reverse = sum_tokens l := by
  simp [sum_tokens, List.map_reverse, List.sum_reverse]

/-- C6 (amended): for a non-empty conversation whose total estimate
exceeds the budget, `truncate_fifo` always retains `messages[0]` as
the first element; the result's estimated sum is within the budget
whenever `messages[0]` alone fits; and when even `messages[0]` alone
exceeds the budget the result is exactly `[messages[0]]` (not the
untruncated list, as originally claimed). -/
theorem C6_truncate_fifo_budget (messages : List Message) (max_tokens : Nat)
    (hne : messages ≠ []) (hover : max_tokens < sum_tokens messages) :
    (truncate_fifo messages max_tokens).1.head? = messages.head? ∧
    (estimate_tokens (messages.head hne) none ≤ max_tokens →
      sum_tokens (truncate_fifo messages max_tokens).1 ≤ max_tokens) ∧
    (max_tokens < estimate_tokens (messages.head hne) none →
      (truncate_fifo messages max_tokens).1 = [messages.head hne]) := by
  cases messages with
  | nil => exact absurd rfl hne
  | cons first rest =>
    have hnle : ¬ sum_tokens (first :: rest) ≤ max_tokens := by omega
    refine ⟨?_, fun hf => ?_, fun hf => ?_⟩
    · simp [truncate_fifo, hnle]
    · simp only [truncate_fifo, if_neg hnle]
      have h1 := admit_from_end_le max_tokens rest.reverse (estimate_tokens first none)
        (by simpa using hf)
      simp only [sum_tokens, List.map_cons, List.sum_cons] at h1 ⊢
      have h2 := sum_tokens_reverse
        (admit_from_end max_tokens (estimate_tokens first none) rest.reverse)
      simp only [sum_tokens] at h2
      omega
    · simp only [List.head] at hf
      simp [truncate_fifo, hnle, admit_from_end_over max_tokens _ _ hf, List.head]

/-- C6 counterexample: two one-token messages against a zero budget
satisfy the claim's premises (non-empty, total above budget,
`messages[0]` alone above budget), yet `truncate_fifo` does not return
the untruncated list — it keeps only `messages[0]`. -/
theorem C6_truncate_fifo_budget_counterexample :
    (([⟨"user", .inl ""⟩, ⟨"user", .inl ""⟩] : List Message) ≠ []) ∧
    0 < sum_tokens [⟨"user", .inl ""⟩, ⟨"user", .inl ""⟩] ∧
    0 < estimate_tokens (⟨"user", .inl ""⟩ : Message) none ∧
    (truncate_fifo [⟨"user", .inl ""⟩, ⟨"user", .inl ""⟩] 0).1 ≠
      [⟨"user", .inl ""⟩, ⟨"user", .inl ""⟩] := by
  refine ⟨by simp, by decide, by decide, ?_⟩
  have h : (truncate_fifo [⟨"user", .inl ""⟩, ⟨"user", .inl ""⟩] 0).1 =
      [⟨"user", .inl ""⟩] := rfl
  rw [h]
  simp

/-- C6 witness: the amended theorem applied to the counterexample
input (where the first message alone exceeds the zero budget). -/
theorem C6_truncate_fifo_budget_witness :
    (truncate_fifo [⟨"user", .inl ""⟩, ⟨"user", .inl ""⟩] 0).1 =
      [(⟨"user", .inl ""⟩ : Message)] :=
  (C6_truncate_fifo_budget [⟨"user", .inl ""⟩, ⟨"user", .inl ""⟩] 0 (by simp)
    (by decide)).2.2 (by decide)

/-! ## C7: estimate_tokens and non-text blocks -/

/-- Length of `String.intercalate.go` with a one-character separator. -/
theorem intercalate_go_length (t : List String) :
    ∀ acc : String, (String.intercalate.go acc " " t).length =
      acc.length + (t.map fun s => 1 + s.length).sum := by
  induction t with
  | nil => intro acc; simp [String.intercalate.go]
  | cons b t ih =>
    intro acc
    have hgo : String.intercalate.go acc " " (b :: t) =
        String.intercalate.go (acc ++ " " ++ b) " " t := rfl
    rw [hgo, ih]
    have hsp : (" " : String).length = 1 := rfl
    simp only [String.length_append, List.map_cons, List.sum_cons, hsp]
    omega

/-- Length of a `" "`-join: head length plus `1 +` length per further
element. -/
theorem intercalate_space_length_cons (s : String) (rest : List String) :
    (String.intercalate " " (s :: rest)).length =
      s.length + (rest.map fun t => 1 + t.length).sum := by
  have h : String.intercalate " " (s :: rest) = String.intercalate.go s " " rest := rfl
  rw [h, intercalate_go_length]

/-- Each block's measured string has the spec's per-block length. -/
theorem spec_block_len_eq (b : ContentBlock) :
    (block_text_for_len b).length = spec_block_len b := by
  cases b <;> rfl

/-- C7 (amended): `estimate_tokens` equals the spec-side refinement
`estimate_tokens_spec`: `len(text)//ratio + 1` where `text` joins with
single spaces the `text` of text blocks and the `str()` repr of
tool-call/tool-result blocks (so non-text blocks do contribute to the
measured length), the ratio being selected by substring match of the
lowered model name in table order with 4.0 as the default. -/
theorem C7_estimate_tokens_refines_spec (message : Message) (model : Option String) :
    estimate_tokens message model = estimate_tokens_spec message model ∧
    token_ratio_for none = (4, 1) ∧
    (∀ m : String, strContains m.toLower "claude" = true →
      token_ratio_for (some m) = (7, 2)) ∧
    (∀ m : String, strContains m.toLower "claude" = false →
      strContains m.toLower "gpt" = false → strContains m.toLower "gemini" = false →
      token_ratio_for (some m) = (4, 1)) := by
  refine ⟨?_, rfl, fun m h => ?_, fun m h1 h2 h3 => ?_⟩
  · cases hmc : message.content with
    | inl s => simp [estimate_tokens, estimate_tokens_spec, hmc]
    | inr blocks =>
      cases blocks with
      | nil => simp [estimate_tokens, estimate_tokens_spec, hmc, String.intercalate]
      | cons b bs =>
        simp only [estimate_tokens, estimate_tokens_spec, hmc]
        have hmap : List.map (fun t : String => 1 + t.length)
              (List.map block_text_for_len bs) =
            List.map (fun b2 => 1 + spec_block_len b2) bs := by
          rw [List.map_map]
          simp [Function.comp, spec_block_len_eq]
        rw [List.map_cons, intercalate_space_length_cons, hmap, spec_block_len_eq]
  · simp [token_ratio_for, ratio_scan, TOKEN_RATIOS, h]
  · simp [token_ratio_for, ratio_scan, TOKEN_RATIOS, h1, h2, h3]

/-- C7 counterexample: a message holding a single tool-use block. The
claim predicts the estimate of an empty text (tool blocks contribute
nothing), i.e. `0/ratio + 1 = 1`; the code measures the block's
`str()` repr and returns 11. -/
theorem C7_estimate_tokens_counterexample :
    estimate_tokens ⟨"assistant", .inr [ContentBlock.toolUse "1" "t" []]⟩ none = 11 ∧
    ("" : String).length * (token_ratio_for none).2 / (token_ratio_for none).1 + 1 = 1 ∧
    estimate_tokens ⟨"assistant", .inr [ContentBlock.toolUse "1" "t" []]⟩ none ≠
      ("" : String).length * (token_ratio_for none).2 / (token_ratio_for none).1 + 1 := by
  refine ⟨?_, by decide, ?_⟩
  · simp [estimate_tokens, block_text_for_len, blockStr, pyRepr, pyStrRepr, token_ratio_for]
    decide
  · simp [estimate_tokens, block_text_for_len, blockStr, pyRepr, pyStrRepr, token_ratio_for]
    decide

/-! ## C3: run_stream input-JSON accumulation -/

theorem str_foldl_append (l : List String) :
    ∀ a b : String, List.foldl (fun r s => r ++ s) (a ++ b) l =
      a ++ List.foldl (fun r s => r ++ s) b l := by
  induction l with
  | nil => intro a b; rfl
  | cons c cs ih =>
    intro a b
    simp only [List.foldl_cons]
    rw [String.append_assoc, ih]

theorem str_join_cons (d : String) (ds : List String) :
    String.join (d :: ds) = d ++ String.join ds := by
  show List.foldl (fun r s => r ++ s) ("" ++ d) ds = d ++ List.foldl (fun r s => r ++ s) "" ds
  have h : ("" : String) ++ d = d ++ "" := by
    rw [String.append_empty]; rfl
  rw [h, str_foldl_append]

/-- Re-assigning the value a key already holds leaves the dict
unchanged. -/
theorem aset_of_alookup_eq {α : Type} (m : List (String × α)) (k : String) (v : α)
    (h : alookup m k = some v) : aset m k v = m := by
  induction m with
  | nil => simp [alookup] at h
  | cons p rest ih =>
    obtain ⟨k0, v0⟩ := p
    by_cases h0 : k0 = k
    · subst h0
      simp [alookup] at h
      simp [aset, h]
    · simp [alookup, h0] at h
      simp [aset, h0, ih h]

/-- Folding the `ToolUseInputEvent` branch over a run of deltas for
one id concatenates them, in arrival order, onto that id's buffer, and
changes nothing else. -/
theorem stream_deltas_fold (id2 : String) (deltas : List String) :
    ∀ (st : StreamState) (b : String),
      alookup st.tool_input_buffers id2 = some b →
      (deltas.map (StreamEvent.toolUseInput id2)).foldl stream_step st =
        { st with
          tool_input_buffers :=
            aset st.tool_input_buffers id2 (b ++ String.join deltas) } := by
  induction deltas with
  | nil =>
    intro st b hb
    simp only [List.map_nil, List.foldl_nil]
    rw [show String.join [] = "" from rfl, String.append_empty,
      aset_of_alookup_eq _ _ _ hb]
  | cons d ds ih =>
    intro st b hb
    simp only [List.map_cons, List.foldl_cons]
    have hstep : stream_step st (.toolUseInput id2 d) =
        { st with tool_input_buffers := aset st.tool_input_buffers id2 (b ++ d) } := by
      simp [stream_step, hb]
    rw [hstep, ih _ (b ++ d) (by simp [alookup_aset_self])]
    simp [aset_aset, String.append_assoc, str_join_cons]

/-- C3: in `run_stream`, the input-JSON fragments for one tool call id
are concatenated in arrival order and parsed when the descriptor is
finalized — on `MessageStop` or on the next `ToolUseStart` — via the
code's finalize step `finalize_tool_input`, whose result on any string
that fails to parse (and on the empty buffer) is the empty argument
map; nothing raises (the fold is a total function). Concretely, the
deltas `'\x7b"a":'` then `'1\x7d'` reconstruct the argument map
`\x7b"a": 1\x7d`. -/
theorem C3_stream_input_accumulation :
    (stream_collect [.toolUseStart "t1" "calc", .toolUseInput "t1" "\x7b\"a\":",
        .toolUseInput "t1" "1\x7d", .messageStop "tool_use" none]).tool_uses =
      [⟨"t1", "calc", Json.obj [("a", Json.num 1)]⟩] ∧
    (∀ (id name r : String) (u : Option Usage) (deltas : List String),
      (stream_collect ([StreamEvent.toolUseStart id name] ++
          deltas.map (StreamEvent.toolUseInput id) ++
          [StreamEvent.messageStop r u])).tool_uses =
        [⟨id, name, finalize_tool_input (Json.obj []) (String.join deltas)⟩]) ∧
    (∀ (id name id2 name2 : String) (deltas : List String),
      (stream_collect ([StreamEvent.toolUseStart id name] ++
          deltas.map (StreamEvent.toolUseInput id) ++
          [StreamEvent.toolUseStart id2 name2])).tool_uses =
        [⟨id, name, finalize_tool_input (Json.obj []) (String.join deltas)⟩]) ∧
    (∀ s, json_loads s = none → finalize_tool_input (Json.obj []) s = Json.obj []) := by
  have hmid : ∀ (id name : String) (deltas : List String),
      List.foldl stream_step (⟨"", [], none, [], "end_turn"⟩ : StreamState)
        ([StreamEvent.toolUseStart id name] ++ deltas.map (StreamEvent.toolUseInput id)) =
        { collected_text := "", tool_uses := [],
          current_tool := some ⟨id, name, Json.obj []⟩,
          tool_input_buffers := aset [(id, "")] id ("" ++ String.join deltas),
          stop_reason := "end_turn" } := by
    intro id name deltas
    rw [List.foldl_append]
    have h1 : List.foldl stream_step (⟨"", [], none, [], "end_turn"⟩ : StreamState)
        [StreamEvent.toolUseStart id name] =
        ⟨"", [], some ⟨id, name, Json.obj []⟩, [(id, "")], "end_turn"⟩ := rfl
    rw [h1, stream_deltas_fold id deltas _ "" (by simp [alookup])]
  refine ⟨rfl, fun id name r u deltas => ?_, fun id name id2 name2 deltas => ?_,
    fun s hs => ?_⟩
  · show (List.foldl stream_step _ _).tool_uses = _
    rw [List.foldl_append, hmid]
    simp [stream_step, alookup_aset_self]
  · show (List.foldl stream_step _ _).tool_uses = _
    rw [List.foldl_append, hmid]
    simp [stream_step, alookup_aset_self]
  · by_cases h0 : s = ""
    · simp [finalize_tool_input, h0]
    · simp [finalize_tool_input, h0, hs]

/-! ## C4: fail_fast and failed dependencies -/

/-- C4 (the claim fails on the code): with `fail_fast` set, when task
`A`'s agent raises and `B` depends on `A`, the loop `break`s after `A`:
`B` receives no synthesized failure `TaskResult` in the returned map
(it is absent altogether) and `B`'s agent is never invoked — the
synthesize-and-skip branch is unreachable because a failed task is
never added to `completed` under `fail_fast` (and its `continue` would
only skip to the next dependency anyway). -/
theorem C4_fail_fast_skips_dependents_entirely :
    Orchestrator.run ⟨cFailFastCfg, [], cTasksFail⟩ =
      (["A"], .ok [("A", ⟨"A", false, none, some "boom"⟩)]) ∧
    (match (Orchestrator.run ⟨cFailFastCfg, [], cTasksFail⟩).2 with
     | .ok m => alookup m "B"
     | .error _ => none) = none :=
  ⟨rfl, rfl⟩

/-! ## C10: TaskResult.agent_name carries the task name -/

/-- Inserting a result whose `agent_name` is its key preserves the
key-equals-agent-name invariant. -/
theorem agent_name_inv_aset (results : List (String × TaskResult)) (k : String)
    (r : TaskResult) (hinv : ∀ p ∈ results, p.2.agent_name = p.1)
    (hr : r.agent_name = k) : ∀ p ∈ aset results k r, p.2.agent_name = p.1 := by
  intro p hp
  rcases mem_aset results k r p hp with h | h
  · exact hinv p h
  · rw [h]
    exact hr

/-- The dependency check only ever inserts synthesized failures keyed
and named by the current task. -/
theorem dep_check_agent_name (fail_fast : Bool) (task_name : String)
    (completed : List String) :
    ∀ (deps : List String) (results results1 : List (String × TaskResult)),
      dep_check fail_fast task_name completed deps results = .ok results1 →
      (∀ p ∈ results, p.2.agent_name = p.1) → ∀ p ∈ results1, p.2.agent_name = p.1 := by
  intro deps
  induction deps with
  | nil =>
    intro results results1 h hp
    simp only [dep_check, Except.ok.injEq] at h
    rw [← h]
    exact hp
  | cons dep deps ih =>
    intro results results1 h hp
    simp only [dep_check] at h
    by_cases h1 : dep ∉ completed
    · simp [h1] at h
    · rw [if_neg h1] at h
      cases halo : alookup results dep with
      | none => rw [halo] at h; simp at h
      | some depResult =>
        rw [halo] at h
        dsimp only at h
        by_cases h2 : fail_fast ∧ ¬depResult.success
        · rw [if_pos h2] at h
          exact ih _ _ h (agent_name_inv_aset _ _ _ hp rfl)
        · rw [if_neg h2] at h
          exact ih _ _ h hp

/-- The run loop preserves the invariant that every stored
`TaskResult`'s `agent_name` equals its key, the task's name. -/
theorem run_tasks_agent_name (cfg : OrchestratorConfig) (taskMap : List (String × Task)) :
    ∀ (order : List String) (st : RunState),
      (∀ p ∈ st.results, p.2.agent_name = p.1) →
      ∀ (log : List String) (m : List (String × TaskResult)),
        run_tasks cfg taskMap order st = (log, .ok m) →
        ∀ p ∈ m, p.2.agent_name = p.1 := by
  intro order
  induction order with
  | nil =>
    intro st hinv log m h
    simp only [run_tasks, Prod.mk.injEq, Except.ok.injEq] at h
    rw [← h.2]
    exact hinv
  | cons tname order ih =>
    intro st hinv log m h
    simp only [run_tasks] at h
    cases htm : alookup taskMap tname with
    | none => rw [htm] at h; simp at h
    | some task =>
      rw [htm] at h
      dsimp only at h
      cases hdc : dep_check cfg.fail_fast tname st.completed task.depends_on st.results with
      | error e => rw [hdc] at h; simp at h
      | ok results1 =>
        rw [hdc] at h
        dsimp only at h
        have hres1 : ∀ p ∈ results1, p.2.agent_name = p.1 :=
          dep_check_agent_name _ _ _ _ _ _ hdc hinv
        cases hag : task.agent
            (match task.query with | .str s => s | .fn f => f st.context) with
        | ok response =>
          rw [hag] at h
          dsimp only at h
          refine ih _ ?_ _ _ h
          exact agent_name_inv_aset results1 tname _ hres1 rfl
        | error e =>
          rw [hag] at h
          dsimp only at h
          by_cases hff : cfg.fail_fast
          · rw [if_pos hff] at h
            simp only [Prod.mk.injEq, Except.ok.injEq] at h
            rw [← h.2]
            exact agent_name_inv_aset results1 tname _ hres1 rfl
          · rw [if_neg hff] at h
            refine ih _ ?_ _ _ h
            exact agent_name_inv_aset results1 tname _ hres1 rfl

/-- C10: every `TaskResult` in `Orchestrator.run`'s returned map —
successful, raised-fault, or synthesized for a failed dependency —
has `agent_name` equal to the task's name (its key in the map), never
the agent's registration name. -/
theorem C10_agent_name_is_task_name (o : Orchestrator) (log : List String)
    (m : List (String × TaskResult)) (h : o.run = (log, .ok m)) :
    ∀ p ∈ m, p.2.agent_name = p.1 := by
  simp only [Orchestrator.run] at h
  cases hts : topological_sort (task_map_of o.tasks) with
  | error e => rw [hts] at h; simp at h
  | ok order =>
    rw [hts] at h
    dsimp only at h
    exact run_tasks_agent_name o.config (task_map_of o.tasks) order ⟨[], [], [], []⟩
      (by simp) log m h

/-! ## C9: Router.add_route predicate sources -/

theorem mem_insert_by_priority_self :
    ∀ (l : List RoutingRule) (r : RoutingRule), r ∈ insert_by_priority l r := by
  intro l r
  induction l with
  | nil => simp [insert_by_priority]
  | cons x xs ih =>
    simp only [insert_by_priority]
    by_cases h : r.priority ≤ x.priority
    · simp [h, ih]
    · simp [h]

theorem mem_insert_by_priority_of_mem :
    ∀ (l : List RoutingRule) (r a : RoutingRule), a ∈ l → a ∈ insert_by_priority l r := by
  intro l
  induction l with
  | nil => intro r a ha; simp at ha
  | cons x xs ih =>
    intro r a ha
    simp only [insert_by_priority]
    by_cases h : r.priority ≤ x.priority
    · rw [if_pos h]
      rcases List.mem_cons.mp ha with h1 | h1
      · simp [h1]
      · simp [ih r a h1]
    · rw [if_neg h]
      simp [ha]

theorem mem_sort_routes_aux :
    ∀ (l acc : List RoutingRule) (a : RoutingRule), (a ∈ acc ∨ a ∈ l) →
      a ∈ l.foldl insert_by_priority acc := by
  intro l
  induction l with
  | nil =>
    intro acc a h
    rcases h with h | h
    · simpa using h
    · simp at h
  | cons x xs ih =>
    intro acc a h
    simp only [List.foldl_cons]
    rcases h with h | h
    · exact ih _ a (Or.inl (mem_insert_by_priority_of_mem acc x a h))
    · rcases List.mem_cons.mp h with h1 | h1
      · subst h1
        exact ih _ a (Or.inl (mem_insert_by_priority_self acc a))
      · exact ih _ a (Or.inr h1)

/-- A member of the input list is a member of the sorted route list. -/
theorem mem_sort_routes (l : List RoutingRule) (a : RoutingRule) (h : a ∈ l) :
    a ∈ sort_routes l :=
  mem_sort_routes_aux l [] a (Or.inr h)

/-- C9 (amended): `add_route` raises exactly when NONE of the three
predicate sources is (truthily) supplied; supplying more than one does
NOT raise — the stored rule's predicate is chosen by the precedence
condition > pattern > keywords. -/
theorem C9_add_route_predicate_sources (router : Router) (name : String)
    (agent : String → Except String Response) (keywords : Option (List String))
    (pattern : Option String) (condition : Option (String → Bool)) (priority : Int)
    (metadata : List (String × Json)) :
    (isRaise (router.add_route name agent keywords pattern condition priority metadata) =
        true ↔
      (condition = none ∧ (∀ p, pattern = some p → p = "") ∧
        (∀ ks, keywords = some ks → ks = []))) ∧
    (∀ c r2, condition = some c →
      router.add_route name agent keywords pattern condition priority metadata = .ok r2 →
        (⟨name, agent, .custom c, priority,
          if metadata.isEmpty then none else some metadata⟩ : RoutingRule) ∈ r2.routes) ∧
    (∀ p r2, condition = none → pattern = some p → p ≠ "" →
      router.add_route name agent keywords pattern condition priority metadata = .ok r2 →
        (⟨name, agent, .patternCond p, priority,
          if metadata.isEmpty then none else some metadata⟩ : RoutingRule) ∈ r2.routes) ∧
    (∀ ks r2, condition = none → (∀ p, pattern = some p → p = "") → keywords = some ks →
      ks ≠ [] →
      router.add_route name agent keywords pattern condition priority metadata = .ok r2 →
        (⟨name, agent, .keywordCond ks, priority,
          if metadata.isEmpty then none else some metadata⟩ : RoutingRule) ∈ r2.routes) := by
  refine ⟨?_, fun c r2 hc hok => ?_, fun p r2 hc hp hpne hok => ?_,
    fun ks r2 hc hpe hk hkne hok => ?_⟩
  · cases condition with
    | some c => simp [Router.add_route, isRaise]
    | none =>
      cases pattern with
      | some p =>
        by_cases hp : p = ""
        · subst hp
          cases keywords with
          | some ks =>
            cases ks with
            | nil => simp [Router.add_route, isRaise]
            | cons k0 krest => simp [Router.add_route, isRaise]
          | none => simp [Router.add_route, isRaise]
        · simp [Router.add_route, isRaise, hp]
      | none =>
        cases keywords with
        | some ks =>
          cases ks with
          | nil => simp [Router.add_route, isRaise]
          | cons k0 krest => simp [Router.add_route, isRaise]
        | none => simp [Router.add_route, isRaise]
  · subst hc
    simp only [Router.add_route, Except.ok.injEq] at hok
    rw [← hok]
    exact mem_sort_routes _ _ (by simp)
  · subst hc; subst hp
    simp only [Router.add_route, if_neg hpne, Except.ok.injEq] at hok
    rw [← hok]
    exact mem_sort_routes _ _ (by simp)
  · subst hc; subst hk
    have hpe2 : pattern = none ∨ pattern = some "" := by
      cases pattern with
      | none => exact Or.inl rfl
      | some p => exact Or.inr (by rw [hpe p rfl])
    have hke : ks.isEmpty = false := by
      cases ks with
      | nil => exact absurd rfl hkne
      | cons a b => rfl
    rcases hpe2 with hpe3 | hpe3
    · subst hpe3
      simp [Router.add_route, hke] at hok
      rw [← hok]
      exact mem_sort_routes _ _ (by simp)
    · subst hpe3
      simp [Router.add_route, hke] at hok
      rw [← hok]
      exact mem_sort_routes _ _ (by simp)

/-- C9 counterexample: supplying both `keywords` and `pattern` (two
predicate sources) does not raise, contradicting the claim that more
than one source raises. -/
theorem C9_add_route_counterexample :
    isRaise (Router.add_route
      ⟨⟨none, "Unable to route request to an appropriate agent."⟩, [], []⟩
      "r1" cOkAgent (some ["k"]) (some "p") none 0 []) = false := rfl

/-- C9 witness: with no predicate source at all, `add_route` raises. -/
theorem C9_add_route_predicate_sources_witness :
    isRaise (Router.add_route ⟨⟨none, "fb"⟩, [], []⟩ "r1" cOkAgent none none none 0 []) =
      true :=
  (C9_add_route_predicate_sources ⟨⟨none, "fb"⟩, [], []⟩ "r1" cOkAgent none none none 0
    []).1.mpr ⟨rfl, by simp, by simp⟩

/-! ## C5: topological execution order and cycle detection

The general half of C5 is proved through the invariant `kahn_inv` of
the Kahn loop: the members of a cycle witness `S` never reach the
queue, so the emitted order misses them and `_topological_sort`
raises before `run` executes anything. -/

theorem akeys_foldl_aset_nodup (tasks : List Task) :
    ∀ acc : List (String × Task), (akeys acc).Nodup →
      (akeys (tasks.foldl (fun m t => aset m t.name t) acc)).Nodup := by
  induction tasks with
  | nil => intro acc h; simpa using h
  | cons t ts ih =>
    intro acc h
    simp only [List.foldl_cons]
    apply ih
    rw [akeys_aset]
    by_cases hk : t.name ∈ akeys acc
    · simpa [hk] using h
    · rw [if_neg hk]
      refine List.Nodup.append h (by simp) ?_
      intro a ha hb
      simp at hb
      subst hb
      exact hk ha

/-- The keys of `task_map_of` are distinct (python dict keys). -/
theorem task_map_keys_nodup (tasks : List Task) : (akeys (task_map_of tasks)).Nodup :=
  akeys_foldl_aset_nodup tasks [] (by simp [akeys])

/-- Every edge endpoint is a task name. -/
theorem edges_of_mem (taskMap : List (String × Task)) :
    ∀ e ∈ edges_of taskMap, e.1 ∈ akeys taskMap ∧ e.2 ∈ akeys taskMap := by
  intro e he
  simp only [edges_of, List.mem_flatMap] at he
  obtain ⟨p, hp, he2⟩ := he
  simp only [List.mem_filterMap] at he2
  obtain ⟨dep, _, hfe⟩ := he2
  by_cases hin : dep ∈ akeys taskMap
  · rw [if_pos hin] at hfe
    have he : e = (dep, p.1) := by injection hfe with h; exact h.symm
    subst he
    refine ⟨hin, ?_⟩
    simp only [akeys, List.mem_map]
    exact ⟨p, hp, rfl⟩
  · rw [if_neg hin] at hfe
    cases hfe

/-- A cycle witness is supported by actual edges. -/
theorem cycle_edges (taskMap : List (String × Task)) (S : List String)
    (h : has_dep_cycle taskMap S) : ∀ s ∈ S, ∃ d ∈ S, (d, s) ∈ edges_of taskMap := by
  intro s hs
  obtain ⟨t, ht, d, hdS, hdep⟩ := h.2 s hs
  refine ⟨d, hdS, ?_⟩
  obtain ⟨td, htd, _⟩ := h.2 d hdS
  have hdk : d ∈ akeys taskMap := alookup_some_key_mem _ _ _ htd
  simp only [edges_of, List.mem_flatMap]
  refine ⟨(s, t), alookup_some_mem _ _ _ ht, ?_⟩
  simp only [List.mem_filterMap]
  exact ⟨d, hdep, by simp [hdk]⟩

theorem alookup_map_zero (names : List String) (x : String) :
    alookup (names.map fun n => (n, (0 : Int))) x = if x ∈ names then some 0 else none := by
  induction names with
  | nil => simp [alookup]
  | cons n ns ih =>
    simp only [List.map_cons, alookup]
    by_cases h : n = x
    · subst h
      simp
    · have h2 : ¬x = n := fun hh => h hh.symm
      simp [h, h2, ih]

theorem indeg_bump_lookup (edges : List (String × String)) :
    ∀ (m : List (String × Int)) (x : String),
      (alookup (edges.foldl (fun m e => aset m e.2 ((alookup m e.2).getD 0 + 1)) m) x).getD 0 =
        (alookup m x).getD 0 + (edges.countP fun e => e.2 = x : Nat) := by
  induction edges with
  | nil => intro m x; simp
  | cons e es ih =>
    intro m x
    simp only [List.foldl_cons, List.countP_cons]
    rw [ih]
    by_cases h : e.2 = x
    · rw [h, alookup_aset_self]
      simp [h]
      omega
    · rw [alookup_aset_ne _ _ _ _ h]
      simp [h]

/-- At the start, every name's in-degree is its full incoming-edge
count. -/
theorem indeg_init_lookup (names : List String) (edges : List (String × String))
    (x : String) (hx : x ∈ names) :
    (alookup (indeg_init names edges) x).getD 0 = (ecount edges [] x : Int) := by
  unfold indeg_init
  rw [indeg_bump_lookup, alookup_map_zero, if_pos hx]
  simp only [Option.getD_some, Int.zero_add, ecount]
  norm_cast
  apply List.countP_congr
  intro e _
  simp

/-- `graph[current]` contains each dependent once per edge. -/
theorem dependents_count (edges : List (String × String)) (current y : String) :
    (dependents_of edges current).count y =
      edges.countP fun e => e.1 = current ∧ e.2 = y := by
  induction edges with
  | nil => simp [dependents_of]
  | cons e es ih =>
    simp only [dependents_of, List.filterMap_cons, List.countP_cons] at ih ⊢
    by_cases h1 : e.1 = current
    · rw [if_pos h1]
      by_cases h2 : e.2 = y
      · simp [List.count_cons, h1, h2, ih]
      · simp [List.count_cons, h2, h1, ih]
    · rw [if_neg h1]
      simp [h1, ih]

/-- Emitting `current` removes exactly its outgoing edge multiplicities
from the not-yet-emitted counts. -/
theorem ecount_append (edges : List (String × String)) (res : List String)
    (current x : String) (hc : current ∉ res) :
    (ecount edges (res ++ [current]) x : Int) =
      (ecount edges res x : Int) -
        (edges.countP fun e => e.1 = current ∧ e.2 = x : Nat) := by
  induction edges with
  | nil => simp [ecount]
  | cons e es ih =>
    simp only [ecount, List.countP_cons] at ih ⊢
    by_cases h1 : e.2 = x
    · by_cases h2 : e.1 = current
      · have ha : e.1 ∉ res := by rw [h2]; exact hc
        have hb : e.1 ∈ res ++ [current] := by simp [h2]
        simp [h1, h2, ha, hb, hc, -List.append_assoc] at ih ⊢
        omega
      · by_cases h3 : e.1 ∈ res
        · have hb : e.1 ∈ res ++ [current] := by simp [h3]
          simp [h1, h2, h3, hb, hc, -List.append_assoc] at ih ⊢
          omega
        · have hb : e.1 ∉ res ++ [current] := by simp [h3, h2]
          simp [h1, h2, h3, hb, hc, -List.append_assoc] at ih ⊢
          omega
    · simp [h1, hc, -List.append_assoc] at ih ⊢
      omega

/-- After the decrement loop, each value has dropped by the dependent's
multiplicity. -/
theorem dec_deps_lookup :
    ∀ (ys : List String) (indeg : List (String × Int)) (queue : List String) (x : String),
      (alookup (dec_deps ys indeg queue).1 x).getD 0 =
        (alookup indeg x).getD 0 - (ys.count x : Nat) := by
  intro ys
  induction ys with
  | nil => intro indeg queue x; simp [dec_deps]
  | cons y ys ih =>
    intro indeg queue x
    simp only [dec_deps]
    rw [ih]
    by_cases h : y = x
    · subst h
      rw [alookup_aset_self]
      simp [List.count_cons]
      omega
    · rw [alookup_aset_ne _ _ _ _ h]
      have hyx : (y == x) = false := by
        simp [h]
      simp [List.count_cons, hyx]

/-- The queue grows by exactly the dependents whose running value hits
0 during the loop: those whose prior value `v` satisfies
`1 ≤ v ≤ multiplicity`. -/
theorem dec_deps_queue_count :
    ∀ (ys : List String) (indeg : List (String × Int)) (queue : List String) (x : String),
      ((dec_deps ys indeg queue).2.count x : Int) =
        (queue.count x : Nat) +
          (if 1 ≤ (alookup indeg x).getD 0 ∧
              (alookup indeg x).getD 0 ≤ (ys.count x : Nat) then 1 else 0) := by
  intro ys
  induction ys with
  | nil =>
    intro indeg queue x
    have hno : ¬(1 ≤ (alookup indeg x).getD 0 ∧
        (alookup indeg x).getD 0 ≤ (([] : List String).count x : Nat)) := by
      rw [List.count_nil]
      push_cast
      omega
    simp only [dec_deps]
    rw [if_neg hno]
    simp
  | cons y ys ih =>
    intro indeg queue x
    simp only [dec_deps]
    rw [ih]
    by_cases h : y = x
    · subst h
      rw [alookup_aset_self]
      simp only [Option.getD_some]
      have hcc : (y :: ys).count y = ys.count y + 1 := by
        simp [List.count_cons]
      rw [hcc]
      by_cases hz : (alookup indeg y).getD 0 - 1 = 0
      · rw [if_pos hz]
        have hc1 : (queue ++ [y]).count y = queue.count y + 1 := by
          simp [List.count_append]
        rw [hc1]
        push_cast
        split_ifs <;> omega
      · rw [if_neg hz]
        push_cast
        split_ifs <;> omega
    · rw [alookup_aset_ne _ _ _ _ h]
      have hyx : (y == x) = false := by simp [h]
      have hcc : (y :: ys).count x = ys.count x := by
        simp [List.count_cons, hyx]
      rw [hcc]
      by_cases hz : (alookup indeg y).getD 0 - 1 = 0
      · rw [if_pos hz]
        have hcq : (queue ++ [y]).count x = queue.count x := by
          simp [List.count_append, List.count_cons, List.count_nil, hyx]
        rw [hcq]
      · rw [if_neg hz]

/-- One pop of the Kahn loop preserves the invariant. -/
theorem kahn_step (edges : List (String × String)) (names S : List String)
    (hEnds : ∀ e ∈ edges, e.1 ∈ names ∧ e.2 ∈ names)
    (hS : ∀ s ∈ S, ∃ d ∈ S, (d, s) ∈ edges)
    (current : String) (queue : List String) (indeg : List (String × Int))
    (result : List String)
    (hinv : kahn_inv edges names S (current :: queue) indeg result) :
    kahn_inv edges names S (dec_deps (dependents_of edges current) indeg queue).2
      (dec_deps (dependents_of edges current) indeg queue).1 (result ++ [current]) := by
  obtain ⟨hA, hB, hC1, hC2, hD, hSdisj⟩ := hinv
  -- decompose the old nodup fact
  rw [List.cons_append, List.nodup_cons, List.nodup_append] at hA
  obtain ⟨hcur_nm, hqnodup, hrnodup, hqr_disj⟩ := hA
  have hcur_notin_queue : current ∉ queue := fun h => hcur_nm (List.mem_append.mpr (.inl h))
  have hcur_notin_res : current ∉ result := fun h => hcur_nm (List.mem_append.mpr (.inr h))
  have hcur_names : current ∈ names := hC1 current (by simp)
  -- abbreviations
  have hV1 : ∀ x, (alookup (dec_deps (dependents_of edges current) indeg queue).1 x).getD 0 =
      (alookup indeg x).getD 0 - ((dependents_of edges current).count x : Nat) :=
    fun x => dec_deps_lookup (dependents_of edges current) indeg queue x
  have hQ2 : ∀ x, (((dec_deps (dependents_of edges current) indeg queue).2.count x : Nat) : Int) =
      ((queue.count x : Nat) : Int) +
        (if 1 ≤ (alookup indeg x).getD 0 ∧ (alookup indeg x).getD 0 ≤
            (((dependents_of edges current).count x : Nat) : Int) then 1 else 0) :=
    fun x => dec_deps_queue_count (dependents_of edges current) indeg queue x
  -- a zero-degree name has no edge from `current`
  have hcnt0 : ∀ x ∈ names, (alookup indeg x).getD 0 = 0 →
      (dependents_of edges current).count x = 0 := by
    intro x hx h0
    by_contra hne
    have hpos : 0 < edges.countP fun e => e.1 = current ∧ e.2 = x := by
      rw [← dependents_count]
      exact Nat.pos_of_ne_zero hne
    obtain ⟨e, heMem, hePred⟩ := List.countP_pos_iff.mp hpos
    have he2 : e.1 = current ∧ e.2 = x := of_decide_eq_true hePred
    have hecount : 0 < ecount edges result x := by
      refine List.countP_pos_iff.mpr ⟨e, heMem, ?_⟩
      refine decide_eq_true ⟨he2.2, ?_⟩
      rw [he2.1]
      exact hcur_notin_res
    have hbx := hB x hx
    omega
  -- membership in the ys list gives an edge and a name
  have hys_mem : ∀ x, x ∈ dependents_of edges current → (current, x) ∈ edges ∧ x ∈ names := by
    intro x hx
    simp only [dependents_of, List.mem_filterMap] at hx
    obtain ⟨e, heMem, hfe⟩ := hx
    by_cases h1 : e.1 = current
    · rw [if_pos h1] at hfe
      have hex : e = (current, x) := by
        obtain ⟨e1, e2⟩ := e
        simp at h1 hfe
        simp [h1, hfe]
      rw [hex] at heMem
      exact ⟨heMem, (hEnds _ heMem).2⟩
    · rw [if_neg h1] at hfe
      cases hfe
  -- the new in-degree table matches the new emitted set
  have hB' : ∀ x ∈ names,
      (alookup (dec_deps (dependents_of edges current) indeg queue).1 x).getD 0 =
        (ecount edges (result ++ [current]) x : Int) := by
    intro x hx
    rw [hV1 x, hB x hx, ecount_append edges result current x hcur_notin_res,
      ← dependents_count]
  -- queue2 membership split
  have hq2_mem : ∀ x, x ∈ (dec_deps (dependents_of edges current) indeg queue).2 →
      x ∈ queue ∨ (1 ≤ (alookup indeg x).getD 0 ∧ (alookup indeg x).getD 0 ≤
        (((dependents_of edges current).count x : Nat) : Int)) := by
    intro x hx
    have hpos : 0 < (dec_deps (dependents_of edges current) indeg queue).2.count x :=
      List.count_pos_iff.mpr hx
    have := hQ2 x
    by_cases hq : x ∈ queue
    · exact .inl hq
    · right
      have hz : queue.count x = 0 := List.count_eq_zero.mpr hq
      rw [hz] at this
      by_contra hcond
      rw [if_neg hcond] at this
      omega
  refine ⟨?_, hB', ?_, ?_, ?_, ?_⟩
  · -- nodup
    rw [List.nodup_append]
    refine ⟨?_, ?_, ?_⟩
    · rw [List.nodup_iff_count_le_one]
      intro x
      have hq2 := hQ2 x
      by_cases hxq : x ∈ queue
      · have h0 : (alookup indeg x).getD 0 = 0 :=
          hD x (by simp [hxq])
        have hno : ¬(1 ≤ (alookup indeg x).getD 0 ∧ (alookup indeg x).getD 0 ≤
            (((dependents_of edges current).count x : Nat) : Int)) := by
          omega
        rw [if_neg hno] at hq2
        have hle := List.nodup_iff_count_le_one.mp hqnodup x
        omega
      · have hz : queue.count x = 0 := List.count_eq_zero.mpr hxq
        rw [hz] at hq2
        split_ifs at hq2 <;> omega
    · rw [List.nodup_append]
      refine ⟨hrnodup, by simp, ?_⟩
      intro a ha hb
      simp at hb
      subst hb
      exact hcur_notin_res ha
    · intro a ha hb
      rcases hq2_mem a ha with haq | hind
      · rcases List.mem_append.mp hb with hb1 | hb1
        · exact hqr_disj haq hb1
        · simp at hb1
          subst hb1
          exact hcur_notin_queue haq
      · have h0 : (alookup indeg a).getD 0 = 0 := by
          rcases List.mem_append.mp hb with hb1 | hb1
          · exact hD a (by simp [hb1])
          · simp at hb1
            subst hb1
            exact hD a (by simp)
        omega
  · -- queue2 ⊆ names
    intro q hq
    rcases hq2_mem q hq with hq1 | hq1
    · exact hC1 q (by simp [hq1])
    · have hpos : 0 < (dependents_of edges current).count q := by omega
      exact (hys_mem q (List.count_pos_iff.mp hpos)).2
  · -- result ++ [current] ⊆ names
    intro r hr
    rcases List.mem_append.mp hr with hr1 | hr1
    · exact hC2 r hr1
    · simp at hr1
      subst hr1
      exact hcur_names
  · -- all emitted/queued have degree 0
    intro q hq
    rcases List.mem_append.mp hq with hq1 | hq1
    · rcases hq2_mem q hq1 with hq2 | hq2
      · have h0 : (alookup indeg q).getD 0 = 0 := hD q (by simp [hq2])
        have hc0 := hcnt0 q (hC1 q (by simp [hq2])) h0
        rw [hV1 q, hc0, h0]
        simp
      · have hqn : q ∈ names := by
          have hpos : 0 < (dependents_of edges current).count q := by omega
          exact (hys_mem q (List.count_pos_iff.mp hpos)).2
        have hge : 0 ≤ (alookup (dec_deps (dependents_of edges current) indeg queue).1 q).getD 0 := by
          rw [hB' q hqn]
          positivity
        have hle2 := hV1 q
        omega
    · rcases List.mem_append.mp hq1 with hr1 | hr1
      · have h0 : (alookup indeg q).getD 0 = 0 := hD q (by simp [hr1])
        have hc0 := hcnt0 q (hC2 q hr1) h0
        rw [hV1 q, hc0, h0]
        simp
      · simp at hr1
        subst hr1
        have h0 : (alookup indeg q).getD 0 = 0 := hD q (by simp)
        have hc0 := hcnt0 q hcur_names h0
        rw [hV1 q, hc0, h0]
        simp
  · -- S never reaches queue or result
    intro s hsS
    have hold := hSdisj s hsS
    rw [List.mem_append] at hold
    push_neg at hold
    obtain ⟨hs_cq, hs_res⟩ := hold
    have hs_ne_cur : s ≠ current := fun h => hs_cq (by simp [h])
    have hs_nq : s ∉ queue := fun h => hs_cq (by simp [h])
    intro hmem
    rcases List.mem_append.mp hmem with h1 | h1
    · rcases hq2_mem s h1 with h2 | h2
      · exact hs_nq h2
      · -- an S-edge keeps the new degree positive
        obtain ⟨d, hdS, hdedge⟩ := hS s hsS
        have hdold := hSdisj d hdS
        rw [List.mem_append] at hdold
        push_neg at hdold
        have hd_ne_cur : d ≠ current := fun h => hdold.1 (by simp [h])
        have hd_nres : d ∉ result := hdold.2
        have hsn : s ∈ names := (hEnds _ hdedge).2
        have hecount : 0 < ecount edges (result ++ [current]) s := by
          refine List.countP_pos_iff.mpr ⟨(d, s), hdedge, ?_⟩
          refine decide_eq_true ⟨rfl, ?_⟩
          simp [hd_nres, hd_ne_cur]
        have hnew := hB' s hsn
        have hle2 := hV1 s
        omega
    · rcases List.mem_append.mp h1 with h2 | h2
      · exact hs_res h2
      · simp at h2
        exact hs_ne_cur h2

/-- Whatever stops the Kahn loop (fuel or an empty queue), the emitted
order is duplicate-free, within the task names, and misses every
member of the cycle witness. -/
theorem kahn_loop_S_free (edges : List (String × String)) (names S : List String)
    (hEnds : ∀ e ∈ edges, e.1 ∈ names ∧ e.2 ∈ names)
    (hS : ∀ s ∈ S, ∃ d ∈ S, (d, s) ∈ edges) :
    ∀ (fuel : Nat) (queue : List String) (indeg : List (String × Int))
      (result : List String),
      kahn_inv edges names S queue indeg result →
      (kahn_loop edges fuel queue indeg result).Nodup ∧
      (∀ r ∈ kahn_loop edges fuel queue indeg result, r ∈ names) ∧
      (∀ s ∈ S, s ∉ kahn_loop edges fuel queue indeg result) := by
  intro fuel
  induction fuel with
  | zero =>
    intro queue indeg result hinv
    obtain ⟨hA, _, _, hC2, _, hSd⟩ := hinv
    refine ⟨(List.nodup_append.mp hA).2.1, hC2, fun s hs hmem => ?_⟩
    rw [show kahn_loop edges 0 queue indeg result = result from rfl] at hmem
    exact hSd s hs (List.mem_append.mpr (.inr hmem))
  | succ fuel ih =>
    intro queue indeg result hinv
    cases queue with
    | nil =>
      obtain ⟨hA, _, _, hC2, _, hSd⟩ := hinv
      refine ⟨(List.nodup_append.mp hA).2.1, hC2, fun s hs hmem => ?_⟩
      rw [show kahn_loop edges (fuel + 1) [] indeg result = result from rfl] at hmem
      exact hSd s hs (List.mem_append.mpr (.inr hmem))
    | cons current queue =>
      have hstep := kahn_step edges names S hEnds hS current queue indeg result hinv
      have hrec := ih _ _ _ hstep
      simpa [kahn_loop] using hrec

/-- The initial state of the Kahn loop satisfies the invariant. -/
theorem kahn_init (taskMap : List (String × Task)) (S : List String)
    (hnames : (akeys taskMap).Nodup) (hcyc : has_dep_cycle taskMap S) :
    kahn_inv (edges_of taskMap) (akeys taskMap) S
      ((akeys taskMap).filter fun n =>
        (alookup (indeg_init (akeys taskMap) (edges_of taskMap)) n).getD 0 = 0)
      (indeg_init (akeys taskMap) (edges_of taskMap)) [] := by
  have hS := cycle_edges taskMap S hcyc
  refine ⟨?_, ?_, ?_, by simp, ?_, ?_⟩
  · rw [List.append_nil]
    exact List.Nodup.filter _ hnames
  · intro x hx
    exact indeg_init_lookup _ _ x hx
  · intro q hq
    exact (List.mem_filter.mp hq).1
  · intro q hq
    rw [List.append_nil] at hq
    exact of_decide_eq_true (List.mem_filter.mp hq).2
  · intro s hsS
    rw [List.append_nil]
    intro hmem
    have hcond := of_decide_eq_true (List.mem_filter.mp hmem).2
    obtain ⟨d, _, hdedge⟩ := hS s hsS
    have hsn : s ∈ akeys taskMap := (edges_of_mem taskMap _ hdedge).2
    have hpos : 0 < ecount (edges_of taskMap) [] s := by
      refine List.countP_pos_iff.mpr ⟨(d, s), hdedge, ?_⟩
      exact decide_eq_true ⟨rfl, by simp⟩
    have := indeg_init_lookup (akeys taskMap) (edges_of taskMap) s hsn
    omega

theorem length_lt_of_missing (res names : List String) (hres : res.Nodup)
    (hnames : names.Nodup) (hsub : ∀ r ∈ res, r ∈ names) (s0 : String)
    (hs0n : s0 ∈ names) (hs0 : s0 ∉ res) : res.length < names.length := by
  have h1 : res.toFinset ⊆ names.toFinset.erase s0 := by
    intro x hx
    rw [List.mem_toFinset] at hx
    refine Finset.mem_erase.mpr ⟨?_, ?_⟩
    · rintro rfl
      exact hs0 hx
    · rw [List.mem_toFinset]
      exact hsub x hx
  have h2 := Finset.card_le_card h1
  rw [Finset.card_erase_of_mem (List.mem_toFinset.mpr hs0n),
    List.toFinset_card_of_nodup hres, List.toFinset_card_of_nodup hnames] at h2
  have h3 : 0 < names.length := List.length_pos.mpr (by rintro rfl; simp at hs0n)
  omega

/-- On any cyclic dependency set (with distinct task names),
`_topological_sort` raises the cycle error. -/
theorem topological_sort_cycle (taskMap : List (String × Task)) (S : List String)
    (hnames : (akeys taskMap).Nodup) (hcyc : has_dep_cycle taskMap S) :
    topological_sort taskMap = .error "Circular dependency detected in tasks" := by
  have hloop := kahn_loop_S_free (edges_of taskMap) (akeys taskMap) S
    (edges_of_mem taskMap) (cycle_edges taskMap S hcyc)
    ((akeys taskMap).length + 1) _ _ _ (kahn_init taskMap S hnames hcyc)
  obtain ⟨hnodup, hsub, hSfree⟩ := hloop
  obtain ⟨s0, hs0S⟩ : ∃ s0, s0 ∈ S := by
    cases hs : S with
    | nil => exact absurd hs hcyc.1
    | cons a t => exact ⟨a, by simp⟩
  obtain ⟨t0, ht0, _⟩ := hcyc.2 s0 hs0S
  have hs0names : s0 ∈ akeys taskMap := alookup_some_key_mem _ _ _ ht0
  have hlt := length_lt_of_missing _ _ hnodup hnames hsub s0 hs0names (hSfree s0 hs0S)
  simp only [topological_sort]
  rw [if_pos (by omega)]

/-- C5: `Orchestrator.run` executes agents in a topological order of
the dependency graph — on `\x7bA: [], B: [A], C: [B]\x7d` the agents
run in the order A, B, C — and on every cyclic dependency set (one
witnessed by a nonempty `S` each of whose tasks depends on a member of
`S`, e.g. `\x7bA: [B], B: [A]\x7d`) it raises the cycle `ValueError`
with no agent executed (empty invocation log). -/
theorem C5_topological_order_and_cycle_error :
    (Orchestrator.run ⟨cFailFastCfg, [], cTasksABC⟩).1 = ["A", "B", "C"] ∧
    Orchestrator.run ⟨cFailFastCfg, [], cTasksCyc⟩ =
      ([], .error "Circular dependency detected in tasks") ∧
    (∀ (o : Orchestrator) (S : List String), has_dep_cycle (task_map_of o.tasks) S →
      o.run = ([], .error "Circular dependency detected in tasks")) := by
  refine ⟨rfl, rfl, fun o S hcyc => ?_⟩
  have herr := topological_sort_cycle (task_map_of o.tasks) S
    (task_map_keys_nodup o.tasks) hcyc
  simp [Orchestrator.run, herr]

/-- C5 witness: the cycle clause applied to the concrete two-task
cycle `\x7bA: [B], B: [A]\x7d` with witness set `S = ["A", "B"]`. -/
theorem C5_topological_order_and_cycle_error_witness :
    Orchestrator.run ⟨cFailFastCfg, [], cTasksCyc⟩ =
      ([], .error "Circular dependency detected in tasks") :=
  C5_topological_order_and_cycle_error.2.2 ⟨cFailFastCfg, [], cTasksCyc⟩ ["A", "B"]
    ⟨by simp, by
      intro s hs
      rcases List.mem_cons.mp hs with rfl | hs2
      · exact ⟨⟨"A", cOkAgent, .str "qa", ["B"]⟩, rfl, "B", by simp, by simp⟩
      · rcases List.mem_cons.mp hs2 with rfl | hs3
        · exact ⟨⟨"B", cOkAgent, .str "qb", ["A"]⟩, rfl, "A", by simp, by simp⟩
        · simp at hs3⟩

/-- C10 witness: in the concrete A→B→C run, the stored result for task
"A" carries `agent_name = "A"`. -/
theorem C10_agent_name_is_task_name_witness :
    TaskResult.agent_name ⟨"A", true, some cResp, none⟩ = "A" :=
  C10_agent_name_is_task_name ⟨cFailFastCfg, [], cTasksABC⟩ ["A", "B", "C"]
    [("A", ⟨"A", true, some cResp, none⟩), ("B", ⟨"B", true, some cResp, none⟩),
     ("C", ⟨"C", true, some cResp, none⟩)] rfl
    ("A", ⟨"A", true, some cResp, none⟩) (by simp)

end Miu
